import Mathlib

/-!
# Table serialisation (`tables.c`): shallow embedding and properties

The C functions of `tables.c` are embedded as Lean functions.

* Machine integers are `Int`/`Nat` with explicit conversions (`to_int32`,
  `to_uint32`, ...), applied wherever the source stores into a fixed-width
  object or passes an argument of fixed-width type.
* `size_t` is taken to be 64 bits wide.
* A `FILE` is a byte list with a position; whether the n-th library call on it
  (`fwrite`, `fgetpos`, `fsetpos`) succeeds is given by the field `ok`.
* Functions that take a `struct yytbl_writer *` pass the writer explicitly and
  return it next to the C return value.
* The constants `YYT_DATA8`, `YYT_DATA16`, `YYT_DATA32` and
  `YYT_ID_TRANSITION` come from a header that is not part of the sources; they
  are the parameter `K : Consts`.
-/

namespace Tables

/-! ## Fixed-width integers -/

/-- Conversion to `int8_t` (two's complement wrap). -/
def to_int8 (x : Int) : Int := (x + 2 ^ 7) % 2 ^ 8 - 2 ^ 7

/-- Conversion to `int16_t` (two's complement wrap). -/
def to_int16 (x : Int) : Int := (x + 2 ^ 15) % 2 ^ 16 - 2 ^ 15

/-- Conversion to `int32_t` (two's complement wrap). -/
def to_int32 (x : Int) : Int := (x + 2 ^ 31) % 2 ^ 32 - 2 ^ 31

/-- Conversion to `uint8_t`. -/
def to_uint8 (x : Int) : Nat := (x % 2 ^ 8).toNat

/-- Conversion to `uint16_t`. -/
def to_uint16 (x : Int) : Nat := (x % 2 ^ 16).toNat

/-- Conversion to `uint32_t`. -/
def to_uint32 (x : Int) : Nat := (x % 2 ^ 32).toNat

/-- Conversion to `size_t` (64 bits). -/
def to_size_t (x : Int) : Nat := (x % 2 ^ 64).toNat

/-- The C library function `abs` on `int`; the result is stored in an `int`, so
`abs (INT_MIN)` wraps to `INT_MIN`. -/
def c_abs (x : Int) : Int := to_int32 (if x < 0 then -x else x)

/-- The limit `INT8_MAX`. -/
def INT8_MAX : Int := 127

/-- The limit `INT16_MAX`. -/
def INT16_MAX : Int := 32767

/-! ## Constants of the missing header -/

/-- Constants used by `tables.c` whose definitions are in a header outside the
sources: the three element-width flag bits and the identifier of the
transition table. -/
structure Consts where
  YYT_DATA8 : Nat
  YYT_DATA16 : Nat
  YYT_DATA32 : Nat
  YYT_ID_TRANSITION : Nat

/-- The width flags are usable as flags: `YYT_DATA8` and `YYT_DATA16` are
non-zero, fit in the 16-bit flag field and share no bit. -/
def Consts.Sane (K : Consts) : Prop :=
  K.YYT_DATA8 ≠ 0 ∧ K.YYT_DATA16 ≠ 0 ∧ K.YYT_DATA16 &&& K.YYT_DATA8 = 0 ∧
    K.YYT_DATA8 < 2 ^ 16 ∧ K.YYT_DATA16 < 2 ^ 16

/-- A concrete choice of the constants: one bit per width, identifier 11. -/
def flexConsts : Consts :=
  { YYT_DATA8 := 1, YYT_DATA16 := 2, YYT_DATA32 := 4, YYT_ID_TRANSITION := 11 }

/-! ## Macros -/

/-- The macro `yypad64(n)`: `((8-((n)%8))%8)`. -/
def yypad64 (n : Nat) : Nat := (8 - n % 8) % 8

/-- The macro `TFLAGS2BYTES(td_flags)`. -/
def TFLAGS2BYTES (K : Consts) (td_flags : Nat) : Nat :=
  if td_flags &&& K.YYT_DATA8 ≠ 0 then 1
  else if td_flags &&& K.YYT_DATA16 ≠ 0 then 2
  else 4

/-- The macro `BYTES2TFLAG(n)`. -/
def BYTES2TFLAG (K : Consts) (n : Nat) : Nat :=
  if n = 1 then K.YYT_DATA8
  else if n = 2 then K.YYT_DATA16
  else K.YYT_DATA32

/-- The macro `TFLAGS_CLRDATA(flg)`: `flg & ~(YYT_DATA8 | YYT_DATA16 | YYT_DATA32)`,
on the 16 bits of the flag field. -/
def TFLAGS_CLRDATA (K : Consts) (flg : Nat) : Nat :=
  flg &&& ((2 ^ 16 - 1) ^^^ ((K.YYT_DATA8 ||| K.YYT_DATA16 ||| K.YYT_DATA32) % 2 ^ 16))

/-! ## The output stream -/

/-- A stdio stream: the bytes of the file, the file position, the number of
library calls made on it so far, and which of the calls succeed. -/
structure FILE where
  content : List Nat
  pos : Nat
  calls : Nat
  ok : Nat → Bool

/-- The bytes `bs` stored at offset `pos` of `content`: overwriting what is
there and extending the file past its end. -/
def overwrite (content : List Nat) (pos : Nat) (bs : List Nat) : List Nat :=
  content.take pos ++ bs ++ content.drop (pos + bs.length)

/-- The call `fwrite (ptr, size, nmemb, f)` where `bs` are the `size * nmemb`
bytes at `ptr`. Returns the number of items written: `nmemb` when the call
succeeds, `0` (a short count, nothing transferred) when it does not. -/
def fwrite (bs : List Nat) (nmemb : Nat) (f : FILE) : Nat × FILE :=
  if f.ok f.calls then
    (nmemb, { f with content := overwrite f.content f.pos bs,
                     pos := f.pos + bs.length, calls := f.calls + 1 })
  else
    (0, { f with calls := f.calls + 1 })

/-- The call `fgetpos (f, &pos)`: return value, position, stream. -/
def fgetpos (f : FILE) : Int × Nat × FILE :=
  if f.ok f.calls then (0, f.pos, { f with calls := f.calls + 1 })
  else (-1, 0, { f with calls := f.calls + 1 })

/-- The call `fsetpos (f, &pos)`: return value and stream. -/
def fsetpos (f : FILE) (pos : Nat) : Int × FILE :=
  if f.ok f.calls then (0, { f with pos := pos, calls := f.calls + 1 })
  else (-1, { f with calls := f.calls + 1 })

/-- A stream on an empty file all of whose calls succeed. -/
def emptyFile : FILE := { content := [], pos := 0, calls := 0, ok := fun _ => true }

/-! ## The writer and the primitive writers -/

/-- Modelled from the spec: `struct yytbl_writer` is declared in a header
outside the sources. The session holds the sink, the cumulative count of bytes
written (32 bits, unsigned) and the saved position of the header's
section-size field. -/
structure yytbl_writer where
  out : FILE
  total_written : Nat
  th_ssize_pos : Nat

/-- The function `yytbl_writer_init`. The position member is not initialised
by the source; it is `0` here. -/
def yytbl_writer_init (out : FILE) : Int × yytbl_writer :=
  (0, { out := out, total_written := 0, th_ssize_pos := 0 })

/-- The function `yytbl_fwriten`: `v` holds the bytes at the pointer, `len` is
the `int32_t` length argument. -/
def yytbl_fwriten (wr : yytbl_writer) (v : List Nat) (len : Int) : Int × yytbl_writer :=
  let r := fwrite (v.take (to_size_t len)) (to_size_t len) wr.out
  let rv : Nat := r.1
  if rv ≠ to_size_t len then (-1, { wr with out := r.2 })
  else (len, { wr with out := r.2, total_written := to_uint32 (wr.total_written + len) })

/-- Bytes of a 32-bit value in network byte order (`htonl` then memory order). -/
def be32 (v : Nat) : List Nat :=
  [v / 2 ^ 24 % 256, v / 2 ^ 16 % 256, v / 2 ^ 8 % 256, v % 256]

/-- Bytes of a 16-bit value in network byte order (`htons` then memory order). -/
def be16 (v : Nat) : List Nat := [v / 2 ^ 8 % 256, v % 256]

/-- The function `yytbl_fwrite32`; the argument is converted to `uint32_t`. -/
def yytbl_fwrite32 (wr : yytbl_writer) (v : Int) : Int × yytbl_writer :=
  let vnet := be32 (to_uint32 v)
  let bytes : Nat := 4
  let r := fwrite vnet 1 wr.out
  if r.1 ≠ 1 then (-1, { wr with out := r.2 })
  else (bytes, { wr with out := r.2, total_written := to_uint32 (wr.total_written + bytes) })

/-- The function `yytbl_fwrite16`; the argument is converted to `uint16_t`. -/
def yytbl_fwrite16 (wr : yytbl_writer) (v : Int) : Int × yytbl_writer :=
  let vnet := be16 (to_uint16 v)
  let bytes : Nat := 2
  let r := fwrite vnet 1 wr.out
  if r.1 ≠ 1 then (-1, { wr with out := r.2 })
  else (bytes, { wr with out := r.2, total_written := to_uint32 (wr.total_written + bytes) })

/-- The function `yytbl_fwrite8`; the argument is converted to `uint8_t`. -/
def yytbl_fwrite8 (wr : yytbl_writer) (v : Int) : Int × yytbl_writer :=
  let bytes : Nat := 1
  let r := fwrite [to_uint8 v] 1 wr.out
  if r.1 ≠ 1 then (-1, { wr with out := r.2 })
  else (bytes, { wr with out := r.2, total_written := to_uint32 (wr.total_written + bytes) })

/-- The loop of `yytbl_fwrite_pad64`: `while (pad-- > 0)` with `pad` iterations
left and `bwritten` bytes written so far. -/
def pad64_loop : Nat → Int → yytbl_writer → Int × yytbl_writer
  | 0, bwritten, wr => (bwritten, wr)
  | pad + 1, bwritten, wr =>
    let r := yytbl_fwrite8 wr 0
    if r.1 < 0 then (-1, r.2)
    else pad64_loop pad (bwritten + 1) r.2

/-- The function `yytbl_fwrite_pad64`. -/
def yytbl_fwrite_pad64 (wr : yytbl_writer) : Int × yytbl_writer :=
  pad64_loop (yypad64 wr.total_written) 0 wr

/-! ## The header -/

/-- A C string: the characters before the terminating NUL. -/
abbrev CString := List Nat

/-- The C library function `strlen`. -/
def strlen (s : CString) : Nat := s.length

/-- The bytes in memory at a string's address: the characters and the NUL. -/
def c_str (s : CString) : List Nat := s ++ [0]

/-- The function `copy_string` (defined outside the sources): a fresh copy. -/
def copy_string (s : CString) : CString := s

/-- Modelled from the spec: `struct yytbl_hdr` is declared in a header outside
the sources. Magic, header size, section size (32 bits each, unsigned), flags
(16 bits) and the two owned strings. -/
structure yytbl_hdr where
  th_magic : Nat
  th_hsize : Nat
  th_ssize : Nat
  th_flags : Nat
  th_version : CString
  th_name : CString
deriving DecidableEq, Repr

/-- The function `yytbl_hdr_init`. -/
def yytbl_hdr_init (version_str name : CString) : Int × yytbl_hdr :=
  let th_magic : Nat := 0xF13C57B1
  let th_hsize : Nat := to_uint32 (to_size_t (14 + strlen version_str + 1 + strlen name + 1))
  let th_hsize : Nat := to_uint32 (th_hsize + yypad64 th_hsize)
  (0, { th_magic := th_magic, th_hsize := th_hsize, th_ssize := 0, th_flags := 0,
        th_version := copy_string version_str, th_name := copy_string name })

/-- The function `yytbl_hdr_fwrite`. -/
def yytbl_hdr_fwrite (wr : yytbl_writer) (th : yytbl_hdr) : Int × yytbl_writer :=
  let bwritten : Int := 0
  let r1 := yytbl_fwrite32 wr th.th_magic
  if r1.1 < 0 then (-1, r1.2) else
  let r2 := yytbl_fwrite32 r1.2 th.th_hsize
  if r2.1 < 0 then (-1, r2.2) else
  let bwritten := to_int32 (bwritten + 8)
  let wr := r2.2
  let g := fgetpos wr.out
  let wr := { wr with out := g.2.2, th_ssize_pos := g.2.1 }
  if g.1 ≠ 0 then (-1, wr) else
  let r3 := yytbl_fwrite32 wr th.th_ssize
  if r3.1 < 0 then (-1, r3.2) else
  let r4 := yytbl_fwrite16 r3.2 th.th_flags
  if r4.1 < 0 then (-1, r4.2) else
  let bwritten := to_int32 (bwritten + 6)
  let wr := r4.2
  let sz : Nat := to_size_t (strlen th.th_version + 1)
  let r5 := yytbl_fwriten wr (c_str th.th_version) (to_int32 sz)
  let rv : Nat := to_size_t r5.1
  if rv ≠ sz then (-1, r5.2) else
  let bwritten := to_int32 (bwritten + rv)
  let wr := r5.2
  let sz : Nat := to_size_t (strlen th.th_name + 1)
  let r6 := yytbl_fwriten wr (c_str th.th_name) (to_int32 sz)
  let rv : Nat := to_size_t r6.1
  if rv ≠ sz then (1, r6.2) else
  let bwritten := to_int32 (bwritten + rv)
  let wr := r6.2
  let r7 := yytbl_fwrite_pad64 wr
  let rv : Nat := to_size_t r7.1
  if rv < 0 then (-1, r7.2) else
  let bwritten := to_int32 (bwritten + rv)
  let wr := r7.2
  if to_uint32 bwritten ≠ th.th_hsize then (-1, wr) else
  (bwritten, wr)

/-! ## Table data -/

/-- Modelled from the spec: `struct yytbl_data` is declared in a header outside
the sources. Identifier, flags (16 bits), the two dimensions (`int32_t`) and
the array behind `td_data` as the list of its elements; every access converts
an element at the width that `td_flags` selects. -/
structure yytbl_data where
  td_id : Nat
  td_flags : Nat
  td_hilen : Int
  td_lolen : Int
  td_data : List Int
deriving DecidableEq, Repr

/-- The function `yytbl_data_init`. -/
def yytbl_data_init (K : Consts) (id : Nat) : Int × yytbl_data :=
  (0, { td_id := id, td_flags := K.YYT_DATA32, td_hilen := 0, td_lolen := 0, td_data := [] })

/-- The function `tbl_get_total_len`. -/
def tbl_get_total_len (K : Consts) (tbl : yytbl_data) : Int :=
  let n := tbl.td_lolen
  let n := if tbl.td_hilen > 0 then to_int32 (n * tbl.td_hilen) else n
  let n := if tbl.td_id = K.YYT_ID_TRANSITION then to_int32 (n * 2) else n
  n

/-- Element `i` of the array; an index outside the array reads as `0`. -/
def cell (data : List Int) (i : Int) : Int :=
  if i < 0 then 0 else data.getD i.toNat 0

/-- The subscript that `yytbl_data_getijk` applies to `td_data`:
`(i * lo + j) * (k + 1) + k` after `k %= 2`, with `lo = tbl->td_lolen`. -/
def getijk_index (tbl : yytbl_data) (i j k : Int) : Int :=
  let k := Int.tmod k 2
  let lo := tbl.td_lolen
  (i * lo + j) * (k + 1) + k

/-- The function `yytbl_data_getijk`. -/
def yytbl_data_getijk (K : Consts) (tbl : yytbl_data) (i j k : Int) : Int :=
  match TFLAGS2BYTES K tbl.td_flags with
  | 1 => to_int8 (cell tbl.td_data (getijk_index tbl i j k))
  | 2 => to_int16 (cell tbl.td_data (getijk_index tbl i j k))
  | 4 => to_int32 (cell tbl.td_data (getijk_index tbl i j k))
  | _ => 0

/-- The function `yytbl_data_geti`. -/
def yytbl_data_geti (K : Consts) (tbl : yytbl_data) (i : Int) : Int :=
  match TFLAGS2BYTES K tbl.td_flags with
  | 1 => to_int8 (cell tbl.td_data i)
  | 2 => to_int16 (cell tbl.td_data i)
  | 4 => to_int32 (cell tbl.td_data i)
  | _ => 0

/-- Store into element `i` of the array; nothing is stored outside it. -/
def setCell (data : List Int) (i : Int) (v : Int) : List Int :=
  if i < 0 then data else data.set i.toNat v

/-- The function `yytbl_data_seti`; returns the table with the element stored. -/
def yytbl_data_seti (K : Consts) (tbl : yytbl_data) (i : Int) (newval : Int) : yytbl_data :=
  match TFLAGS2BYTES K tbl.td_flags with
  | 1 => { tbl with td_data := setCell tbl.td_data i (to_int8 newval) }
  | 2 => { tbl with td_data := setCell tbl.td_data i (to_int16 newval) }
  | 4 => { tbl with td_data := setCell tbl.td_data i (to_int32 newval) }
  | _ => tbl

/-- The element loop of `yytbl_data_fwrite`, `n` iterations left at index `i`:
`rv` and `bwritten` are the locals of the function. The result is either the
writer at an early `return -1`, or the locals and the writer after the loop. -/
def data_fwrite_loop (K : Consts) (td : yytbl_data) :
    Nat → Int → Nat → Int → yytbl_writer → Except yytbl_writer (Nat × Int × yytbl_writer)
  | 0, _, rv, bwritten, wr => .ok (rv, bwritten, wr)
  | n + 1, i, rv, bwritten, wr =>
    let r : Nat × yytbl_writer :=
      match TFLAGS2BYTES K td.td_flags with
      | 1 => let r := yytbl_fwrite8 wr (yytbl_data_geti K td i); (to_size_t r.1, r.2)
      | 2 => let r := yytbl_fwrite16 wr (yytbl_data_geti K td i); (to_size_t r.1, r.2)
      | 4 => let r := yytbl_fwrite32 wr (yytbl_data_geti K td i); (to_size_t r.1, r.2)
      | _ => (rv, wr)
    let rv := r.1
    if rv < 0 then .error r.2
    else data_fwrite_loop K td n (i + 1) rv (to_int32 (bwritten + rv)) r.2

/-- The function `yytbl_data_fwrite`. -/
def yytbl_data_fwrite (K : Consts) (wr : yytbl_writer) (td : yytbl_data) :
    Int × yytbl_writer :=
  let bwritten : Int := 0
  let r := yytbl_fwrite16 wr td.td_id
  let rv : Nat := to_size_t r.1
  if rv < 0 then (-1, r.2) else
  let bwritten := to_int32 (bwritten + rv)
  let r := yytbl_fwrite16 r.2 td.td_flags
  let rv : Nat := to_size_t r.1
  if rv < 0 then (-1, r.2) else
  let bwritten := to_int32 (bwritten + rv)
  let r := yytbl_fwrite32 r.2 td.td_hilen
  let rv : Nat := to_size_t r.1
  if rv < 0 then (-1, r.2) else
  let bwritten := to_int32 (bwritten + rv)
  let r := yytbl_fwrite32 r.2 td.td_lolen
  let rv : Nat := to_size_t r.1
  if rv < 0 then (-1, r.2) else
  let bwritten := to_int32 (bwritten + rv)
  let total_len := tbl_get_total_len K td
  match data_fwrite_loop K td total_len.toNat 0 rv bwritten r.2 with
  | .error wr => (-1, wr)
  | .ok (_, bwritten, wr) =>
    if to_size_t bwritten ≠ to_size_t (12 + total_len * TFLAGS2BYTES K td.td_flags) then
      (-1, wr)
    else
    let r := yytbl_fwrite_pad64 wr
    let rv : Nat := to_size_t r.1
    if rv < 0 then (-1, r.2) else
    let bwritten := to_int32 (bwritten + rv)
    let wr := r.2
    let g := fgetpos wr.out
    let pos := g.2.1
    let wr := { wr with out := g.2.2 }
    if g.1 ≠ 0 then (-1, wr) else
    let s := fsetpos wr.out wr.th_ssize_pos
    let wr := { wr with out := s.2 }
    if s.1 ≠ 0 then (-1, wr) else
    let w := yytbl_fwrite32 wr wr.total_written
    let wr := w.2
    if w.1 < 0 then (-1, wr) else
    let s := fsetpos wr.out pos
    let wr := { wr with out := s.2 }
    if s.1 ≠ 0 then (-1, wr) else
    let wr := { wr with total_written := to_uint32 (wr.total_written - 4) }
    (bwritten, wr)

/-- The scan loop of `min_int_size`, `n` iterations left at index `i` (a
`uint32_t`, converted to `int` for the call of `yytbl_data_geti`). -/
def min_int_size_loop (K : Consts) (tbl : yytbl_data) : Nat → Nat → Int → Int
  | 0, _, max => max
  | n + 1, i, max =>
    let m := c_abs (yytbl_data_geti K tbl (to_int32 i))
    let max := if m > max then m else max
    min_int_size_loop K tbl n (to_uint32 (i + 1)) max

/-- The function `min_int_size`. -/
def min_int_size (K : Consts) (tbl : yytbl_data) : Nat :=
  let total_len : Nat := to_uint32 (tbl_get_total_len K tbl)
  let max := min_int_size_loop K tbl total_len 0 0
  if max ≤ INT8_MAX then 1
  else if max ≤ INT16_MAX then 2
  else 4

/-- The copy loop of `yytbl_data_compress`, `n` iterations left at index `i`. -/
def compress_loop (K : Consts) (tbl : yytbl_data) : Nat → Int → yytbl_data → yytbl_data
  | 0, _, newtbl => newtbl
  | n + 1, i, newtbl =>
    let g := yytbl_data_geti K tbl i
    compress_loop K tbl n (i + 1) (yytbl_data_seti K newtbl i g)

/-- The function `yytbl_data_compress`; returns the table `*tbl` after the
call. `calloc` gives an array of `total_len` zero elements. -/
def yytbl_data_compress (K : Consts) (tbl : yytbl_data) : yytbl_data :=
  let newtbl := (yytbl_data_init K tbl.td_id).2
  let newtbl := { newtbl with td_hilen := tbl.td_hilen }
  let newtbl := { newtbl with td_lolen := tbl.td_lolen }
  let newtbl := { newtbl with td_flags := tbl.td_flags }
  let newsz : Int := to_int32 (min_int_size K tbl)
  if to_size_t newsz = TFLAGS2BYTES K tbl.td_flags then tbl else
  if to_size_t newsz > TFLAGS2BYTES K tbl.td_flags then tbl else
  let total_len := tbl_get_total_len K tbl
  let newtbl := { newtbl with td_data := List.replicate total_len.toNat 0 }
  let newtbl := { newtbl with
    td_flags := to_uint16 (TFLAGS_CLRDATA K newtbl.td_flags ||| BYTES2TFLAG K (to_size_t newsz)) }
  let newtbl := compress_loop K tbl total_len.toNat 0 newtbl
  newtbl

/-! ## States reached by successful calls -/

/-- The sink accepts every call and the stream is positioned at its end. -/
def Good (wr : yytbl_writer) : Prop :=
  (∀ n, wr.out.ok n = true) ∧ wr.out.pos = wr.out.content.length ∧
    wr.total_written < 2 ^ 32

/-- The writer after one successful write call that appends `bs`. -/
def push (wr : yytbl_writer) (bs : List Nat) : yytbl_writer :=
  { wr with
    out := { wr.out with content := wr.out.content ++ bs,
                         pos := wr.out.pos + bs.length, calls := wr.out.calls + 1 },
    total_written := (wr.total_written + bs.length) % 2 ^ 32 }

/-- The writer after `n` successful one-byte writes of `0`. -/
def pushZeros : Nat → yytbl_writer → yytbl_writer
  | 0, wr => wr
  | n + 1, wr => pushZeros n (push wr [0])

/-- The writer after a successful `fgetpos` into `th_ssize_pos`. -/
def mark (wr : yytbl_writer) : yytbl_writer :=
  { wr with out := { wr.out with calls := wr.out.calls + 1 }, th_ssize_pos := wr.out.pos }

/-- The writer after the writes of a successful `yytbl_hdr_fwrite`, before the
padding. -/
def hdrBody (wr : yytbl_writer) (th : yytbl_hdr) : yytbl_writer :=
  push (push (push (push (mark (push (push wr (be32 (to_uint32 th.th_magic)))
    (be32 (to_uint32 th.th_hsize)))) (be32 (to_uint32 th.th_ssize)))
    (be16 (to_uint16 th.th_flags))) (c_str th.th_version)) (c_str th.th_name)

/-- The unpadded header size `14 + len(version)+1 + len(name)+1`. -/
def hdrRaw (version name : CString) : Nat := 14 + (strlen version + 1) + (strlen name + 1)

/-- The bytes of a header on the wire: magic, header size, section size `0`,
flags `0`, the two NUL-terminated strings and the padding. -/
def hdrBytes (version name : CString) : List Nat :=
  [0xF1, 0x3C, 0x57, 0xB1] ++ be32 (yytbl_hdr_init version name).2.th_hsize ++ [0, 0, 0, 0] ++
    [0, 0] ++ version ++ [0] ++ name ++ [0] ++
    List.replicate (yypad64 (14 + (version.length + 1) + (name.length + 1))) 0

/-- The bytes that the element loop of `yytbl_data_fwrite` writes for index `i`. -/
def elemBytes (K : Consts) (td : yytbl_data) (i : Int) : List Nat :=
  match TFLAGS2BYTES K td.td_flags with
  | 1 => [to_uint8 (yytbl_data_geti K td i)]
  | 2 => be16 (to_uint16 (yytbl_data_geti K td i))
  | _ => be32 (to_uint32 (yytbl_data_geti K td i))

/-- The writer after `n` successful element writes starting at index `i`. -/
def pushElems (K : Consts) (td : yytbl_data) : Nat → Int → yytbl_writer → yytbl_writer
  | 0, _, wr => wr
  | n + 1, i, wr => pushElems K td n (i + 1) (push wr (elemBytes K td i))

/-- The bytes of the elements `i`, `i+1`, ..., `i+n-1`. -/
def elemsBytes (K : Consts) (td : yytbl_data) : Nat → Int → List Nat
  | 0, _ => []
  | n + 1, i => elemBytes K td i ++ elemsBytes K td n (i + 1)

/-- The writer after the four metadata writes of `yytbl_data_fwrite`. -/
def recHead (wr : yytbl_writer) (td : yytbl_data) : yytbl_writer :=
  push (push (push (push wr (be16 (to_uint16 td.td_id))) (be16 (to_uint16 td.td_flags)))
    (be32 (to_uint32 td.td_hilen))) (be32 (to_uint32 td.td_lolen))

/-- The writer after the metadata and element writes of `yytbl_data_fwrite`. -/
def recBody (K : Consts) (wr : yytbl_writer) (td : yytbl_data) : yytbl_writer :=
  pushElems K td (tbl_get_total_len K td).toNat 0 (recHead wr td)

/-- The writer after the successful backpatch of `yytbl_data_fwrite`: position
saved, section size overwritten at the anchor, position restored. -/
def patched (wr : yytbl_writer) : yytbl_writer :=
  { wr with
    out := { wr.out with
      content := overwrite wr.out.content wr.th_ssize_pos (be32 (to_uint32 wr.total_written)),
      calls := wr.out.calls + 1 + 1 + 1 + 1 } }

/-! ## Sessions and records, as the specification words them -/

/-- The element count of a record as the specification gives it:
`innerDim × max(outerDim,1) × (2 for the paired-structure identifier, else 1)`. -/
def elementCount (K : Consts) (td : yytbl_data) : Int :=
  td.td_lolen * max td.td_hilen 1 * (if td.td_id = K.YYT_ID_TRANSITION then 2 else 1)

/-- The record has a non-negative element count and its serialised size,
padding included, is representable in the `int` that `yytbl_data_fwrite`
returns. -/
def Fits (K : Consts) (td : yytbl_data) : Prop :=
  0 ≤ elementCount K td ∧
    12 + elementCount K td * (TFLAGS2BYTES K td.td_flags : Nat) + 7 < 2 ^ 31

/-- The writer states of a session: `yytbl_writer_init` on a sink that accepts
every call and is positioned at its end, one `yytbl_hdr_fwrite` of a header
made by `yytbl_hdr_init` (of a size representable in `int`), then any number of
`yytbl_data_fwrite` of records that fit. All these writes succeed. -/
inductive Session (K : Consts) : yytbl_writer → Prop
  | hdr (f : FILE) (version name : CString) :
      (∀ n, f.ok n = true) → f.pos = f.content.length → hdrRaw version name + 7 < 2 ^ 31 →
      Session K (yytbl_hdr_fwrite (yytbl_writer_init f).2 (yytbl_hdr_init version name).2).2
  | tbl (wr : yytbl_writer) (td : yytbl_data) :
      Session K wr → Fits K td → Session K (yytbl_data_fwrite K wr td).2

/-- What holds of the writer between the writes of a session: the sink is
sound, the count of bytes is a multiple of 8 and the anchor of the section-size
field lies inside the sink. -/
def SessionInv (wr : yytbl_writer) : Prop :=
  Good wr ∧ wr.total_written % 8 = 0 ∧ wr.th_ssize_pos + 4 ≤ wr.out.content.length

/-! ## Concrete inputs -/

/-- The version string `"2.6.0"`. -/
def exVersion : CString := [50, 46, 54, 46, 48]

/-- The name string `"M"`. -/
def exName : CString := [77]

/-- The writer of a session on an empty sink after the header for version
`"2.6.0"`, name `"M"` has been written. -/
def exSession : yytbl_writer :=
  (yytbl_hdr_fwrite (yytbl_writer_init emptyFile).2 (yytbl_hdr_init exVersion exName).2).2

/-- A scalar table (identifier 1) of width 4 with inner dimension 5. -/
def exScalar : yytbl_data :=
  { td_id := 1, td_flags := 4, td_hilen := 0, td_lolen := 5, td_data := [0, 1, 2, 3, 300] }

/-! ## The wire encoding, as the specification words it -/

/-- Two's-complement big-endian encoding of `x` in `w` bytes, most significant
byte first. -/
def encodeBE (w : Nat) (x : Int) : List Nat :=
  (List.range w).map (fun k => (x / 256 ^ (w - 1 - k) % 256).toNat)

/-- Decoding of a big-endian field by sign extension. -/
def decodeBE (bs : List Nat) : Int :=
  let u : Int := bs.foldl (fun a b => a * 256 + (b : Int)) 0
  if u ≥ 2 ^ (8 * bs.length - 1) then u - 2 ^ (8 * bs.length) else u

/-- The bytes of a table record before the padding: identifier and flags in 2
bytes each, the two dimensions in 4 bytes each, then every element in buffer
order at the declared width. -/
def recordBytes (K : Consts) (td : yytbl_data) : List Nat :=
  encodeBE 2 td.td_id ++ encodeBE 2 td.td_flags ++ encodeBE 4 td.td_hilen ++
    encodeBE 4 td.td_lolen ++
    (List.range (elementCount K td).toNat).flatMap
      (fun i => encodeBE (TFLAGS2BYTES K td.td_flags) (yytbl_data_geti K td i))

/-- The 32-bit big-endian field at offset `off` of the sink. -/
def readBE32 (content : List Nat) (off : Nat) : Nat :=
  content.getD off 0 * 2 ^ 24 + content.getD (off + 1) 0 * 2 ^ 16 +
    content.getD (off + 2) 0 * 2 ^ 8 + content.getD (off + 3) 0

/-- The number of padding bytes after a record written at byte count
`total_written`. -/
def recordPad (K : Consts) (wr : yytbl_writer) (td : yytbl_data) : Nat :=
  yypad64 (wr.total_written + 12 + (elementCount K td).toNat * TFLAGS2BYTES K td.td_flags)

/-- A writer on the empty sink with nothing written. -/
def emptyWriter : yytbl_writer := (yytbl_writer_init emptyFile).2

/-- A paired-structure table (transition identifier) of width 4 with inner
dimension 3 and outer dimension 2. -/
def exPaired : yytbl_data :=
  { td_id := 11, td_flags := 4, td_hilen := 2, td_lolen := 3,
    td_data := [0, 1, 2, 3, 4, 5, 6, 7, 8, 9, 10, 11] }

/-- The writer after `yytbl_writer_init` on `f` and `yytbl_hdr_fwrite` of the
header that `yytbl_hdr_init` makes for `version` and `name`. -/
def sessionStart (f : FILE) (version name : CString) : yytbl_writer :=
  (yytbl_hdr_fwrite (yytbl_writer_init f).2 (yytbl_hdr_init version name).2).2

/-! ## Compression -/

/-- Conversion of a value to the signed type of `w` bytes. -/
def narrow (w : Nat) (x : Int) : Int :=
  match w with
  | 1 => to_int8 x
  | 2 => to_int16 x
  | _ => to_int32 x

/-- The table that `yytbl_data_compress` builds when it re-encodes at width `s`. -/
def reencoded (K : Consts) (tbl : yytbl_data) (s : Nat) : yytbl_data :=
  { td_id := tbl.td_id,
    td_flags := to_uint16 ((TFLAGS_CLRDATA K tbl.td_flags ||| BYTES2TFLAG K s : Nat) : Int),
    td_hilen := tbl.td_hilen,
    td_lolen := tbl.td_lolen,
    td_data := (List.range (tbl_get_total_len K tbl).toNat).map
      (fun k : Nat => narrow s (yytbl_data_geti K tbl (k : Int))) }

/-- The buffer of the record holds exactly the number of integers that
`tbl_get_total_len` reports, fewer than `2^31`. -/
def Buffered (K : Consts) (td : yytbl_data) : Prop :=
  (td.td_data.length : Int) = tbl_get_total_len K td ∧ tbl_get_total_len K td < 2 ^ 31

/-- The maximum absolute value over the elements of the record, read by flat
access, as the specification words it. -/
def maxAbs (K : Consts) (tbl : yytbl_data) : Int :=
  ((List.range (elementCount K tbl).toNat).map
    (fun k : Nat => ((yytbl_data_geti K tbl (k : Int)).natAbs : Int))).foldl max 0

/-- The minimal width for a maximum absolute value, as the specification words
it: 1 byte up to 127, 2 bytes up to 32767, else 4 bytes. -/
def minimalWidth (m : Int) : Nat :=
  if m ≤ 127 then 1 else if m ≤ 32767 then 2 else 4

/-- A one-element scalar table of width 4 that holds `INT32_MIN`. -/
def exMin : yytbl_data :=
  { td_id := 1, td_flags := 4, td_hilen := 0, td_lolen := 1, td_data := [-2147483648] }

/-! ## Failing sinks, runs and further inputs -/

/-- An empty sink on which the library call number `n` (counted from 0) fails
and every other call succeeds. -/
def failAt (n : Nat) : FILE :=
  { content := [], pos := 0, calls := 0, ok := fun k => k != n }

/-- A one-element scalar table of width 1 that holds `-128`. -/
def exNeg128 : yytbl_data :=
  { td_id := 1, td_flags := 1, td_hilen := 0, td_lolen := 1, td_data := [-128] }

/-- A one-element scalar table of width 1 that holds `5`. -/
def exFive : yytbl_data :=
  { td_id := 1, td_flags := 1, td_hilen := 0, td_lolen := 1, td_data := [5] }

/-- The three width flags are non-zero 16-bit flags, no two of which share a
bit. -/
def Consts.WidthFlags (K : Consts) : Prop :=
  K.Sane ∧ K.YYT_DATA32 ≠ 0 ∧ K.YYT_DATA32 < 2 ^ 16 ∧
    K.YYT_DATA32 &&& K.YYT_DATA8 = 0 ∧ K.YYT_DATA32 &&& K.YYT_DATA16 = 0

/-- One iteration's write in the element loop of `yytbl_data_fwrite`, with the
three width cases only: the new value of `rv` and the writer. -/
def write_elem (K : Consts) (td : yytbl_data) (wr : yytbl_writer) (i : Int) :
    Nat × yytbl_writer :=
  if TFLAGS2BYTES K td.td_flags = 1 then
    (to_size_t (yytbl_fwrite8 wr (yytbl_data_geti K td i)).1,
      (yytbl_fwrite8 wr (yytbl_data_geti K td i)).2)
  else if TFLAGS2BYTES K td.td_flags = 2 then
    (to_size_t (yytbl_fwrite16 wr (yytbl_data_geti K td i)).1,
      (yytbl_fwrite16 wr (yytbl_data_geti K td i)).2)
  else
    (to_size_t (yytbl_fwrite32 wr (yytbl_data_geti K td i)).1,
      (yytbl_fwrite32 wr (yytbl_data_geti K td i)).2)

/-- The writer states reached from `yytbl_writer_init` on an empty sink that
accepts every call, by primitive writes, header writes and table writes whose
sizes are representable in `int`. -/
inductive Run (K : Consts) : yytbl_writer → Prop
  | init (f : FILE) : f.content = [] → f.pos = 0 → (∀ n, f.ok n = true) →
      Run K (yytbl_writer_init f).2
  | w8 (wr : yytbl_writer) (v : Int) : Run K wr → Run K (yytbl_fwrite8 wr v).2
  | w16 (wr : yytbl_writer) (v : Int) : Run K wr → Run K (yytbl_fwrite16 wr v).2
  | w32 (wr : yytbl_writer) (v : Int) : Run K wr → Run K (yytbl_fwrite32 wr v).2
  | wn (wr : yytbl_writer) (bs : List Nat) (len : Int) : Run K wr → 0 ≤ len → len < 2 ^ 31 →
      (bs.length : Int) = len → Run K (yytbl_fwriten wr bs len).2
  | hdr (wr : yytbl_writer) (th : yytbl_hdr) : Run K wr →
      14 + (strlen th.th_version + 1) + (strlen th.th_name + 1) + 7 < 2 ^ 31 →
      Run K (yytbl_hdr_fwrite wr th).2
  | tbl (wr : yytbl_writer) (td : yytbl_data) : Run K wr → Fits K td →
      Run K (yytbl_data_fwrite K wr td).2

/-- The sink is sound, the counter is the size of the sink (as a 32-bit
value) and the saved anchor lies in the sink. -/
def Counted (wr : yytbl_writer) : Prop :=
  Good wr ∧ wr.total_written = wr.out.content.length % 2 ^ 32 ∧
    wr.th_ssize_pos ≤ wr.out.content.length

/-- The writer of a session: the header for `version` and `name` written to a
fresh writer on `f`, then the records `tds` written in order. -/
def sessionAfter (K : Consts) (f : FILE) (version name : CString)
    (tds : List yytbl_data) : yytbl_writer :=
  tds.foldl (fun wr td => (yytbl_data_fwrite K wr td).2) (sessionStart f version name)

/-! ## Lemmas -/

theorem to_uint32_natCast (n : Nat) : to_uint32 (n : Int) = n % 2 ^ 32 := by
  unfold to_uint32; omega

theorem to_uint32_add_nat (a b : Nat) : to_uint32 ((a : Int) + (b : Int)) = (a + b) % 2 ^ 32 := by
  unfold to_uint32; omega

theorem to_size_t_of_nonneg (x : Int) (h0 : 0 ≤ x) (h1 : x < 2 ^ 64) :
    to_size_t x = x.toNat := by
  unfold to_size_t; omega

theorem to_int32_of_range (x : Int) (h0 : -2 ^ 31 ≤ x) (h1 : x < 2 ^ 31) : to_int32 x = x := by
  unfold to_int32; omega

theorem overwrite_at_end (c bs : List Nat) : overwrite c c.length bs = c ++ bs := by
  simp [overwrite]

theorem good_push {wr : yytbl_writer} (h : Good wr) (bs : List Nat) : Good (push wr bs) := by
  obtain ⟨h1, h2, _⟩ := h
  refine ⟨fun n => ?_, ?_, ?_⟩
  · simpa [push] using h1 n
  · simp [push, h2]
  · simp only [push]; omega

theorem fwrite8_good {wr : yytbl_writer} (h : Good wr) (v : Int) :
    yytbl_fwrite8 wr v = (1, push wr [to_uint8 v]) := by
  obtain ⟨h1, h2, _⟩ := h
  simp [yytbl_fwrite8, fwrite, h1, h2, overwrite_at_end, push, to_uint32_add_nat]
  rfl

theorem fwrite16_good {wr : yytbl_writer} (h : Good wr) (v : Int) :
    yytbl_fwrite16 wr v = (2, push wr (be16 (to_uint16 v))) := by
  obtain ⟨h1, h2, _⟩ := h
  simp [yytbl_fwrite16, fwrite, h1, h2, overwrite_at_end, push, to_uint32_add_nat, be16]
  rfl

theorem fwrite32_good {wr : yytbl_writer} (h : Good wr) (v : Int) :
    yytbl_fwrite32 wr v = (4, push wr (be32 (to_uint32 v))) := by
  obtain ⟨h1, h2, _⟩ := h
  simp [yytbl_fwrite32, fwrite, h1, h2, overwrite_at_end, push, to_uint32_add_nat, be32]
  rfl

theorem fwriten_good {wr : yytbl_writer} (h : Good wr) (v : List Nat) (len : Int)
    (h0 : 0 ≤ len) (h1 : len < 2 ^ 31) (hv : (v.length : Int) = len) :
    yytbl_fwriten wr v len = (len, push wr v) := by
  obtain ⟨g1, g2, _⟩ := h
  have e : to_size_t len = v.length := by unfold to_size_t; omega
  have e2 : to_uint32 ((wr.total_written : Int) + len) = (wr.total_written + v.length) % 2 ^ 32 := by
    unfold to_uint32; omega
  simp [yytbl_fwriten, fwrite, g1, g2, overwrite_at_end, push, e, e2]

theorem good_pushZeros (n : Nat) {wr : yytbl_writer} (h : Good wr) : Good (pushZeros n wr) := by
  induction n generalizing wr with
  | zero => exact h
  | succ n ih => exact ih (good_push h _)

theorem pushZeros_content (n : Nat) (wr : yytbl_writer) :
    (pushZeros n wr).out.content = wr.out.content ++ List.replicate n 0 := by
  induction n generalizing wr with
  | zero => simp [pushZeros]
  | succ n ih => simp [pushZeros, ih, push, List.replicate_succ]

theorem pushZeros_total (n : Nat) (wr : yytbl_writer) (h : wr.total_written < 2 ^ 32) :
    (pushZeros n wr).total_written = (wr.total_written + n) % 2 ^ 32 := by
  induction n generalizing wr with
  | zero => simp only [pushZeros]; omega
  | succ n ih =>
    simp only [pushZeros]
    rw [ih _ (by simp only [push]; omega)]
    simp only [push, List.length_singleton]
    omega

theorem pushZeros_anchor (n : Nat) (wr : yytbl_writer) :
    (pushZeros n wr).th_ssize_pos = wr.th_ssize_pos := by
  induction n generalizing wr with
  | zero => rfl
  | succ n ih => simp [pushZeros, ih, push]

theorem pad64_loop_good (n : Nat) (b : Int) {wr : yytbl_writer} (h : Good wr) :
    pad64_loop n b wr = (b + n, pushZeros n wr) := by
  induction n generalizing wr b with
  | zero => simp [pad64_loop, pushZeros]
  | succ n ih =>
    simp only [pad64_loop, fwrite8_good h, pushZeros]
    rw [if_neg (by decide), ih _ (good_push h _)]
    simp [to_uint8]
    omega

theorem fwrite_pad64_good {wr : yytbl_writer} (h : Good wr) :
    yytbl_fwrite_pad64 wr = (((yypad64 wr.total_written : Nat) : Int), pushZeros (yypad64 wr.total_written) wr) := by
  simp [yytbl_fwrite_pad64, pad64_loop_good _ _ h]

theorem pad64_total_mod (wr : yytbl_writer) (h : wr.total_written < 2 ^ 32) :
    (pushZeros (yypad64 wr.total_written) wr).total_written % 8 = 0 := by
  rw [pushZeros_total _ _ h]
  unfold yypad64
  omega

theorem good_mark {wr : yytbl_writer} (h : Good wr) : Good (mark wr) := by
  obtain ⟨h1, h2, h3⟩ := h
  exact ⟨fun n => by simpa [mark] using h1 n, by simpa [mark] using h2, by simpa [mark] using h3⟩

theorem good_hdrBody {wr : yytbl_writer} (h : Good wr) (th : yytbl_hdr) :
    Good (hdrBody wr th) := by
  unfold hdrBody
  exact good_push (good_push (good_push (good_push (good_mark (good_push (good_push h _) _))
    _) _) _) _

theorem hdr_fwrite_good {wr : yytbl_writer} (h : Good wr) (th : yytbl_hdr)
    (hs : 14 + (strlen th.th_version + 1) + (strlen th.th_name + 1) + 7 < 2 ^ 31) :
    yytbl_hdr_fwrite wr th =
      let body := hdrBody wr th
      let pad := yypad64 body.total_written
      let n : Int := 14 + (strlen th.th_version + 1 : Nat) + (strlen th.th_name + 1 : Nat) + pad
      if to_uint32 n ≠ th.th_hsize then (-1, pushZeros pad body) else (n, pushZeros pad body) := by
  have g1 := good_push h (be32 (to_uint32 th.th_magic))
  have g2 := good_push g1 (be32 (to_uint32 th.th_hsize))
  have g3 := good_mark g2
  have g4 := good_push g3 (be32 (to_uint32 th.th_ssize))
  have g5 := good_push g4 (be16 (to_uint16 th.th_flags))
  have g6 := good_push g5 (c_str th.th_version)
  have g7 := good_push g6 (c_str th.th_name)
  have sv : to_size_t ((strlen th.th_version : Int) + 1) = strlen th.th_version + 1 := by
    unfold to_size_t; omega
  have sn : to_size_t ((strlen th.th_name : Int) + 1) = strlen th.th_name + 1 := by
    unfold to_size_t; omega
  have iv : to_int32 ((strlen th.th_version : Int) + 1) = (strlen th.th_version : Int) + 1 := by
    unfold to_int32; omega
  have inn : to_int32 ((strlen th.th_name : Int) + 1) = (strlen th.th_name : Int) + 1 := by
    unfold to_int32; omega
  have wv := fwriten_good g5 (c_str th.th_version) ((strlen th.th_version : Int) + 1)
    (by omega) (by omega) (by simp [c_str, strlen])
  have wn := fwriten_good g6 (c_str th.th_name) ((strlen th.th_name : Int) + 1)
    (by omega) (by omega) (by simp [c_str, strlen])
  unfold yytbl_hdr_fwrite
  simp only [fwrite32_good h, fwrite32_good g1]
  have fg : fgetpos (push (push wr (be32 (to_uint32 th.th_magic))) (be32 (to_uint32 th.th_hsize))).out
      = (0, (push (push wr (be32 (to_uint32 th.th_magic))) (be32 (to_uint32 th.th_hsize))).out.pos,
          (mark (push (push wr (be32 (to_uint32 th.th_magic))) (be32 (to_uint32 th.th_hsize)))).out) := by
    simp [fgetpos, g2.1, mark]
  have mk : ({ out := (mark (push (push wr (be32 (to_uint32 th.th_magic))) (be32 (to_uint32 th.th_hsize)))).out,
               total_written := (push (push wr (be32 (to_uint32 th.th_magic))) (be32 (to_uint32 th.th_hsize))).total_written,
               th_ssize_pos := (push (push wr (be32 (to_uint32 th.th_magic))) (be32 (to_uint32 th.th_hsize))).out.pos } : yytbl_writer)
      = mark (push (push wr (be32 (to_uint32 th.th_magic))) (be32 (to_uint32 th.th_hsize))) := rfl
  simp only [fg, mk, fwrite32_good g3, fwrite16_good g4, Nat.cast_add, Nat.cast_one, sv, sn, iv, inn, wv, wn]
  simp only [fwrite_pad64_good g7, sv, sn]
  have e8 : to_int32 (to_int32 (0 + 8) + 6) = 14 := by decide
  have p7 : yypad64 (hdrBody wr th).total_written < 8 := by unfold yypad64; omega
  have ep : to_size_t ((yypad64 (hdrBody wr th).total_written : Nat) : Int)
      = yypad64 (hdrBody wr th).total_written := by unfold to_size_t; omega
  have hb : hdrBody wr th = push (push (push (push (mark (push (push wr (be32 (to_uint32 th.th_magic)))
    (be32 (to_uint32 th.th_hsize)))) (be32 (to_uint32 th.th_ssize)))
    (be16 (to_uint16 th.th_flags))) (c_str th.th_version)) (c_str th.th_name) := rfl
  simp only [← hb, e8, ep]
  rw [to_int32_of_range (14 + ((strlen th.th_version : Int) + 1)) (by omega) (by omega),
    to_int32_of_range (14 + ((strlen th.th_version : Int) + 1) + ((strlen th.th_name : Int) + 1))
      (by omega) (by omega),
    to_int32_of_range _ (by omega) (by omega)]
  simp

theorem hdrBody_content (wr : yytbl_writer) (th : yytbl_hdr) :
    (hdrBody wr th).out.content = wr.out.content ++ (be32 (to_uint32 th.th_magic) ++
      be32 (to_uint32 th.th_hsize) ++ be32 (to_uint32 th.th_ssize) ++
      be16 (to_uint16 th.th_flags) ++ c_str th.th_version ++ c_str th.th_name) := by
  simp [hdrBody, push, mark]

theorem hdrBody_total (wr : yytbl_writer) (th : yytbl_hdr) :
    (hdrBody wr th).total_written =
      (wr.total_written + 14 + (strlen th.th_version + 1) + (strlen th.th_name + 1)) % 2 ^ 32 := by
  simp only [hdrBody, push, mark, be32, be16, c_str, strlen, List.length_cons, List.length_nil,
    List.length_append]
  omega

theorem hdrBody_anchor (wr : yytbl_writer) (th : yytbl_hdr) :
    (hdrBody wr th).th_ssize_pos = wr.out.pos + 8 := by
  simp [hdrBody, push, mark, be32]

theorem hdr_init_hsize (version name : CString) (hs : hdrRaw version name + 7 < 2 ^ 31) :
    (yytbl_hdr_init version name).2.th_hsize
      = hdrRaw version name + yypad64 (hdrRaw version name) := by
  have e1 : to_uint32 (to_size_t (14 + (strlen version : Int) + 1 + (strlen name : Int) + 1) : Nat)
      = hdrRaw version name := by
    unfold to_uint32 to_size_t hdrRaw; unfold hdrRaw at hs; omega
  simp only [yytbl_hdr_init, e1]
  unfold to_uint32 yypad64; unfold hdrRaw at *; omega

/-- A freshly initialised writer on a sink that accepts every call, positioned
at the end of the sink. -/
theorem good_writer_init (f : FILE) (hok : ∀ n, f.ok n = true)
    (hend : f.pos = f.content.length) : Good (yytbl_writer_init f).2 :=
  ⟨hok, hend, by simp [yytbl_writer_init]⟩

theorem hdr_fwrite_fresh (f : FILE) (version name : CString) (hok : ∀ n, f.ok n = true)
    (hend : f.pos = f.content.length) (hs : hdrRaw version name + 7 < 2 ^ 31) :
    yytbl_hdr_fwrite (yytbl_writer_init f).2 (yytbl_hdr_init version name).2
      = ((((yytbl_hdr_init version name).2.th_hsize : Nat) : Int),
          pushZeros (yypad64 (hdrRaw version name))
            (hdrBody (yytbl_writer_init f).2 (yytbl_hdr_init version name).2)) := by
  have g := good_writer_init f hok hend
  have hv : (yytbl_hdr_init version name).2.th_version = version := rfl
  have hn : (yytbl_hdr_init version name).2.th_name = name := rfl
  have ht : (hdrBody (yytbl_writer_init f).2 (yytbl_hdr_init version name).2).total_written
      = hdrRaw version name := by
    rw [hdrBody_total, hv, hn]
    simp only [yytbl_writer_init, hdrRaw] at *
    omega
  rw [hdr_fwrite_good g _ (by rw [hv, hn]; unfold hdrRaw at hs; omega)]
  simp only [ht, hv, hn]
  rw [hdr_init_hsize version name hs]
  have e : to_uint32 (14 + ((strlen version + 1 : Nat) : Int) + ((strlen name + 1 : Nat) : Int)
      + (yypad64 (hdrRaw version name) : Nat)) = hdrRaw version name + yypad64 (hdrRaw version name) := by
    unfold to_uint32 yypad64; unfold hdrRaw at *; omega
  rw [if_neg (by rw [e]; simp)]
  congr 1

theorem hdr_fwrite_fresh_content (f : FILE) (version name : CString) :
    (pushZeros (yypad64 (hdrRaw version name))
      (hdrBody (yytbl_writer_init f).2 (yytbl_hdr_init version name).2)).out.content
      = f.content ++ hdrBytes version name := by
  rw [pushZeros_content, hdrBody_content]
  have hm : be32 (to_uint32 ((yytbl_hdr_init version name).2.th_magic : Nat)) = [0xF1, 0x3C, 0x57, 0xB1] := by
    show be32 (to_uint32 ((0xF13C57B1 : Nat) : Int)) = _
    decide
  have hh : to_uint32 ((yytbl_hdr_init version name).2.th_hsize : Nat)
      = (yytbl_hdr_init version name).2.th_hsize := by
    rw [to_uint32_natCast]
    simp only [yytbl_hdr_init]
    unfold to_uint32; omega
  have h0 : be32 (to_uint32 ((yytbl_hdr_init version name).2.th_ssize : Nat)) = [0, 0, 0, 0] := by
    show be32 (to_uint32 ((0 : Nat) : Int)) = _
    decide
  have hf : be16 (to_uint16 ((yytbl_hdr_init version name).2.th_flags : Nat)) = [0, 0] := by
    show be16 (to_uint16 ((0 : Nat) : Int)) = _
    decide
  rw [hm, hh, h0, hf]
  simp [hdrBytes, yytbl_writer_init, yytbl_hdr_init, copy_string, c_str, hdrRaw, strlen]

theorem hdrBytes_length (version name : CString) :
    (hdrBytes version name).length = hdrRaw version name + yypad64 (hdrRaw version name) := by
  simp [hdrBytes, be32, hdrRaw, strlen]
  omega

theorem TFLAGS2BYTES_cases (K : Consts) (f : Nat) :
    TFLAGS2BYTES K f = 1 ∨ TFLAGS2BYTES K f = 2 ∨ TFLAGS2BYTES K f = 4 := by
  unfold TFLAGS2BYTES
  split
  · exact Or.inl rfl
  · split
    · exact Or.inr (Or.inl rfl)
    · exact Or.inr (Or.inr rfl)

theorem elemBytes_length (K : Consts) (td : yytbl_data) (i : Int) :
    (elemBytes K td i).length = TFLAGS2BYTES K td.td_flags := by
  unfold elemBytes
  rcases TFLAGS2BYTES_cases K td.td_flags with h | h | h <;> simp [h, be16, be32]

theorem elemsBytes_length (K : Consts) (td : yytbl_data) (n : Nat) (i : Int) :
    (elemsBytes K td n i).length = n * TFLAGS2BYTES K td.td_flags := by
  induction n generalizing i with
  | zero => simp [elemsBytes]
  | succ n ih => simp [elemsBytes, ih, elemBytes_length]; ring

theorem good_pushElems (K : Consts) (td : yytbl_data) (n : Nat) (i : Int) {wr : yytbl_writer}
    (h : Good wr) : Good (pushElems K td n i wr) := by
  induction n generalizing wr i with
  | zero => exact h
  | succ n ih => exact ih _ (good_push h _)

theorem pushElems_content (K : Consts) (td : yytbl_data) (n : Nat) (i : Int) (wr : yytbl_writer) :
    (pushElems K td n i wr).out.content = wr.out.content ++ elemsBytes K td n i := by
  induction n generalizing wr i with
  | zero => simp [pushElems, elemsBytes]
  | succ n ih => simp [pushElems, elemsBytes, ih, push]

theorem pushElems_total (K : Consts) (td : yytbl_data) (n : Nat) (i : Int) (wr : yytbl_writer)
    (h : wr.total_written < 2 ^ 32) :
    (pushElems K td n i wr).total_written
      = (wr.total_written + n * TFLAGS2BYTES K td.td_flags) % 2 ^ 32 := by
  induction n generalizing wr i with
  | zero => simp only [pushElems]; omega
  | succ n ih =>
    simp only [pushElems]
    rw [ih _ _ (by simp only [push]; omega)]
    simp only [push, elemBytes_length]
    rw [Nat.add_mul]
    omega

theorem pushElems_anchor (K : Consts) (td : yytbl_data) (n : Nat) (i : Int) (wr : yytbl_writer) :
    (pushElems K td n i wr).th_ssize_pos = wr.th_ssize_pos := by
  induction n generalizing wr i with
  | zero => rfl
  | succ n ih => simp [pushElems, ih, push]

theorem data_fwrite_loop_step (K : Consts) (td : yytbl_data) (n : Nat) (i : Int) (rv : Nat)
    (b : Int) {wr : yytbl_writer} (h : Good wr) :
    data_fwrite_loop K td (n + 1) i rv b wr
      = data_fwrite_loop K td n (i + 1) (TFLAGS2BYTES K td.td_flags)
          (to_int32 (b + (TFLAGS2BYTES K td.td_flags : Nat))) (push wr (elemBytes K td i)) := by
  have e1 : to_size_t 1 = 1 := by decide
  have e2 : to_size_t 2 = 2 := by decide
  have e4 : to_size_t 4 = 4 := by decide
  rcases TFLAGS2BYTES_cases K td.td_flags with w | w | w
  · simp [data_fwrite_loop, w, fwrite8_good h, e1, elemBytes]
  · simp [data_fwrite_loop, w, fwrite16_good h, e2, elemBytes]
  · simp [data_fwrite_loop, w, fwrite32_good h, e4, elemBytes]

theorem data_fwrite_loop_good (K : Consts) (td : yytbl_data) (n : Nat) (i : Int) (rv : Nat)
    (b : Int) {wr : yytbl_writer} (h : Good wr) (hb0 : 0 ≤ b)
    (hb : b + (n * TFLAGS2BYTES K td.td_flags : Nat) < 2 ^ 31) :
    ∃ rv1, data_fwrite_loop K td n i rv b wr
      = .ok (rv1, b + (n * TFLAGS2BYTES K td.td_flags : Nat), pushElems K td n i wr) := by
  induction n generalizing wr i rv b with
  | zero => exact ⟨rv, by simp [data_fwrite_loop, pushElems]⟩
  | succ n ih =>
    rw [data_fwrite_loop_step K td n i rv b h]
    have hm : (n + 1) * TFLAGS2BYTES K td.td_flags
        = n * TFLAGS2BYTES K td.td_flags + TFLAGS2BYTES K td.td_flags := by ring
    rw [hm] at hb ⊢
    rw [to_int32_of_range _ (by omega) (by omega)]
    obtain ⟨rv1, hr⟩ := ih (i + 1) (TFLAGS2BYTES K td.td_flags)
      (b + (TFLAGS2BYTES K td.td_flags : Nat)) (good_push h (elemBytes K td i)) (by omega)
      (by omega)
    refine ⟨rv1, ?_⟩
    rw [hr]
    simp only [pushElems]
    congr 3
    push_cast; ring

theorem good_recHead {wr : yytbl_writer} (h : Good wr) (td : yytbl_data) : Good (recHead wr td) :=
  good_push (good_push (good_push (good_push h _) _) _) _

theorem good_recBody (K : Consts) {wr : yytbl_writer} (h : Good wr) (td : yytbl_data) :
    Good (recBody K wr td) :=
  good_pushElems K td _ _ (good_recHead h td)

theorem backpatch_eq {wr : yytbl_writer} (h : Good wr) (b : Int) :
    (let g := fgetpos wr.out
    let pos := g.2.1
    let wr := { wr with out := g.2.2 }
    if g.1 ≠ 0 then ((-1 : Int), wr) else
    let s := fsetpos wr.out wr.th_ssize_pos
    let wr := { wr with out := s.2 }
    if s.1 ≠ 0 then (-1, wr) else
    let w := yytbl_fwrite32 wr wr.total_written
    let wr := w.2
    if w.1 < 0 then (-1, wr) else
    let s := fsetpos wr.out pos
    let wr := { wr with out := s.2 }
    if s.1 ≠ 0 then (-1, wr) else
    let wr := { wr with total_written := to_uint32 (wr.total_written - 4) }
    (b, wr)) = (b, patched wr) := by
  obtain ⟨h1, h2, h3⟩ := h
  have e : to_uint32 (((to_uint32 ((wr.total_written : Int) + 4) : Nat) : Int) - 4)
      = wr.total_written := by
    unfold to_uint32; omega
  simp [fgetpos, fsetpos, yytbl_fwrite32, fwrite, h1, patched, e]

theorem data_fwrite_good (K : Consts) {wr : yytbl_writer} (h : Good wr) (td : yytbl_data)
    (h0 : 0 ≤ tbl_get_total_len K td)
    (hb : 12 + tbl_get_total_len K td * (TFLAGS2BYTES K td.td_flags : Nat) + 7 < 2 ^ 31) :
    yytbl_data_fwrite K wr td =
      (12 + tbl_get_total_len K td * (TFLAGS2BYTES K td.td_flags : Nat)
          + (yypad64 (recBody K wr td).total_written : Nat),
        patched (pushZeros (yypad64 (recBody K wr td).total_written) (recBody K wr td))) := by
  have g1 := good_push h (be16 (to_uint16 td.td_id))
  have g2 := good_push g1 (be16 (to_uint16 td.td_flags))
  have g3 := good_push g2 (be32 (to_uint32 td.td_hilen))
  have g4 := good_push g3 (be32 (to_uint32 td.td_lolen))
  have gb := good_recBody K h td
  have gp := good_pushZeros (yypad64 (recBody K wr td).total_written) gb
  have e2 : to_size_t 2 = 2 := by decide
  have e4 : to_size_t 4 = 4 := by decide
  have e12 : to_int32 (to_int32 (to_int32 (to_int32 (0 + 2) + 2) + 4) + 4) = 12 := by decide
  have hn : ((tbl_get_total_len K td).toNat : Int) = tbl_get_total_len K td := Int.toNat_of_nonneg h0
  obtain ⟨rv1, hl⟩ := data_fwrite_loop_good K td (tbl_get_total_len K td).toNat 0 4 12 g4
    (by omega) (by push_cast; rw [hn]; omega)
  have hrh : recHead wr td = push (push (push (push wr (be16 (to_uint16 td.td_id)))
    (be16 (to_uint16 td.td_flags))) (be32 (to_uint32 td.td_hilen))) (be32 (to_uint32 td.td_lolen)) := rfl
  unfold yytbl_data_fwrite
  simp only [fwrite16_good h, fwrite16_good g1, fwrite32_good g2, fwrite32_good g3, e2, e4, e12,
    Nat.not_lt_zero, if_false, Nat.cast_ofNat]
  rw [← hrh] at hl ⊢
  rw [hl]
  have hsz : to_size_t (12 + (((tbl_get_total_len K td).toNat * TFLAGS2BYTES K td.td_flags : Nat) : Int))
      = to_size_t (12 + tbl_get_total_len K td * (TFLAGS2BYTES K td.td_flags : Nat)) := by
    push_cast; rw [hn]
  have hrb : pushElems K td (tbl_get_total_len K td).toNat 0 (recHead wr td) = recBody K wr td := rfl
  simp only [hsz, ne_eq, not_true_eq_false, if_false, hrb, fwrite_pad64_good gb]
  have hp : to_size_t ((yypad64 (recBody K wr td).total_written : Nat) : Int)
      = yypad64 (recBody K wr td).total_written := by
    unfold to_size_t yypad64; omega
  have hfin : to_int32 (12 + (((tbl_get_total_len K td).toNat * TFLAGS2BYTES K td.td_flags : Nat) : Int)
      + (yypad64 (recBody K wr td).total_written : Nat))
      = 12 + tbl_get_total_len K td * (TFLAGS2BYTES K td.td_flags : Nat)
        + (yypad64 (recBody K wr td).total_written : Nat) := by
    have : yypad64 (recBody K wr td).total_written < 8 := by unfold yypad64; omega
    have hpos : 0 ≤ tbl_get_total_len K td * (TFLAGS2BYTES K td.td_flags : Nat) :=
      Int.mul_nonneg h0 (Int.ofNat_nonneg _)
    push_cast; rw [hn]
    exact to_int32_of_range _ (by omega) (by omega)
  simp only [hp, hfin]
  have hbp := backpatch_eq gp (12 + tbl_get_total_len K td * (TFLAGS2BYTES K td.td_flags : Nat)
        + (yypad64 (recBody K wr td).total_written : Nat))
  simpa using hbp

theorem total_len_eq (K : Consts) (td : yytbl_data) (h0 : 0 ≤ elementCount K td)
    (h1 : elementCount K td < 2 ^ 31) : tbl_get_total_len K td = elementCount K td := by
  unfold tbl_get_total_len elementCount at *
  by_cases hh : td.td_hilen > 0
  · have hm : max td.td_hilen 1 = td.td_hilen := max_eq_left (by omega)
    rw [hm] at h0 h1 ⊢
    by_cases hi : td.td_id = K.YYT_ID_TRANSITION
    · simp only [hh, hi, if_true] at h0 h1 ⊢
      generalize td.td_lolen * td.td_hilen = p at h0 h1 ⊢
      rw [to_int32_of_range p (by omega) (by omega), to_int32_of_range _ (by omega) (by omega)]
    · simp only [hh, hi, if_true, if_false] at h0 h1 ⊢
      generalize td.td_lolen * td.td_hilen = p at h0 h1 ⊢
      rw [to_int32_of_range p (by omega) (by omega)]
      omega
  · have hm : max td.td_hilen 1 = 1 := max_eq_right (by omega)
    rw [hm] at h0 h1 ⊢
    by_cases hi : td.td_id = K.YYT_ID_TRANSITION
    · simp only [hh, hi, if_true, if_false, mul_one] at h0 h1 ⊢
      rw [to_int32_of_range _ (by omega) (by omega)]
    · simp only [hh, hi, if_false, mul_one] at h0 h1 ⊢

theorem fits_total_len (K : Consts) (td : yytbl_data) (h : Fits K td) :
    tbl_get_total_len K td = elementCount K td := by
  obtain ⟨h0, h1⟩ := h
  refine total_len_eq K td h0 ?_
  have hw : (1 : Int) ≤ (TFLAGS2BYTES K td.td_flags : Nat) := by
    rcases TFLAGS2BYTES_cases K td.td_flags with w | w | w <;> simp [w]
  nlinarith

theorem overwrite_length (c bs : List Nat) (p : Nat) (h : p + bs.length ≤ c.length) :
    (overwrite c p bs).length = c.length := by
  simp only [overwrite, List.length_append, List.length_take, List.length_drop]
  omega

theorem good_patched {wr : yytbl_writer} (h : Good wr)
    (ha : wr.th_ssize_pos + 4 ≤ wr.out.content.length) : Good (patched wr) := by
  obtain ⟨h1, h2, h3⟩ := h
  refine ⟨fun n => by simpa [patched] using h1 n, ?_, by simpa [patched] using h3⟩
  simp only [patched]
  rw [overwrite_length _ _ _ (by simpa [be32] using ha)]
  exact h2

theorem recHead_content (wr : yytbl_writer) (td : yytbl_data) :
    (recHead wr td).out.content = wr.out.content ++ (be16 (to_uint16 td.td_id) ++
      be16 (to_uint16 td.td_flags) ++ be32 (to_uint32 td.td_hilen) ++
      be32 (to_uint32 td.td_lolen)) := by
  simp [recHead, push]

theorem recHead_total (wr : yytbl_writer) (td : yytbl_data) :
    (recHead wr td).total_written = (wr.total_written + 12) % 2 ^ 32 := by
  simp only [recHead, push, be32, be16, List.length_cons, List.length_nil]
  omega

theorem recBody_total (K : Consts) (wr : yytbl_writer) (td : yytbl_data) :
    (recBody K wr td).total_written
      = (wr.total_written + 12
          + (tbl_get_total_len K td).toNat * TFLAGS2BYTES K td.td_flags) % 2 ^ 32 := by
  unfold recBody
  rw [pushElems_total _ _ _ _ _ (by rw [recHead_total]; omega), recHead_total]
  omega

theorem recBody_anchor (K : Consts) (wr : yytbl_writer) (td : yytbl_data) :
    (recBody K wr td).th_ssize_pos = wr.th_ssize_pos := by
  unfold recBody
  rw [pushElems_anchor]
  simp [recHead, push]

theorem recBody_content (K : Consts) (wr : yytbl_writer) (td : yytbl_data) :
    (recBody K wr td).out.content = wr.out.content ++ (be16 (to_uint16 td.td_id) ++
      be16 (to_uint16 td.td_flags) ++ be32 (to_uint32 td.td_hilen) ++
      be32 (to_uint32 td.td_lolen) ++ elemsBytes K td (tbl_get_total_len K td).toNat 0) := by
  unfold recBody
  rw [pushElems_content, recHead_content]
  simp

theorem sessionInv_hdr (f : FILE) (version name : CString) (hok : ∀ n, f.ok n = true)
    (hend : f.pos = f.content.length) (hs : hdrRaw version name + 7 < 2 ^ 31) :
    SessionInv (yytbl_hdr_fwrite (yytbl_writer_init f).2 (yytbl_hdr_init version name).2).2 := by
  rw [hdr_fwrite_fresh f version name hok hend hs]
  have g := good_hdrBody (good_writer_init f hok hend) (yytbl_hdr_init version name).2
  refine ⟨good_pushZeros _ g, ?_, ?_⟩
  · show (pushZeros _ _).total_written % 8 = 0
    rw [pushZeros_total _ _ g.2.2, hdrBody_total]
    simp only [yytbl_writer_init, yytbl_hdr_init, copy_string, yypad64, hdrRaw] at *
    omega
  · show (pushZeros _ _).th_ssize_pos + 4 ≤ (pushZeros _ _).out.content.length
    rw [pushZeros_anchor, hdrBody_anchor, hdr_fwrite_fresh_content, List.length_append,
      hdrBytes_length]
    simp only [yytbl_writer_init, hdrRaw, hend]
    omega

theorem sessionInv_tbl (K : Consts) (wr : yytbl_writer) (td : yytbl_data) (h : SessionInv wr)
    (hf : Fits K td) : SessionInv (yytbl_data_fwrite K wr td).2 := by
  obtain ⟨g, h8, ha⟩ := h
  have ht := fits_total_len K td hf
  rw [data_fwrite_good K g td (by rw [ht]; exact hf.1) (by rw [ht]; exact hf.2)]
  have gb := good_recBody K g td
  have gz := good_pushZeros (yypad64 (recBody K wr td).total_written) gb
  have hanchor : (pushZeros (yypad64 (recBody K wr td).total_written) (recBody K wr td)).th_ssize_pos + 4
      ≤ (pushZeros (yypad64 (recBody K wr td).total_written) (recBody K wr td)).out.content.length := by
    rw [pushZeros_anchor, recBody_anchor, pushZeros_content, recBody_content]
    simp only [List.length_append]
    omega
  refine ⟨good_patched gz hanchor, ?_, ?_⟩
  · exact pad64_total_mod _ gb.2.2
  · show (patched _).th_ssize_pos + 4 ≤ (patched _).out.content.length
    simp only [patched]
    rw [overwrite_length _ _ _ (by simpa [be32] using hanchor)]
    exact hanchor

theorem session_inv (K : Consts) (wr : yytbl_writer) (h : Session K wr) : SessionInv wr := by
  induction h with
  | hdr f version name hok hend hs => exact sessionInv_hdr f version name hok hend hs
  | tbl wr td _ hf ih => exact sessionInv_tbl K wr td ih hf

/-! ## Properties of the table writer -/

/-- C1: a table record written in a session (after the header and any number
of earlier table writes, all successful, on a sink that never fails) makes
`yytbl_data_fwrite` return `12 + elementCount*width + pad` with
`pad = (8 - (12 + elementCount*width) % 8) % 8`, and leaves `total_written` a
multiple of 8. The record has a non-negative element count and a size that
the `int` result can hold. -/
theorem data_fwrite_returns_padded_size (K : Consts) (wr : yytbl_writer) (td : yytbl_data)
    (hs : Session K wr) (hf : Fits K td) :
    (yytbl_data_fwrite K wr td).1
        = 12 + elementCount K td * (TFLAGS2BYTES K td.td_flags : Nat)
          + (8 - (12 + elementCount K td * (TFLAGS2BYTES K td.td_flags : Nat)) % 8) % 8 ∧
      (yytbl_data_fwrite K wr td).2.total_written % 8 = 0 := by
  obtain ⟨g, h8, _⟩ := session_inv K wr hs
  refine ⟨?_, (sessionInv_tbl K wr td ⟨g, h8, by assumption⟩ hf).2.1⟩
  have ht := fits_total_len K td hf
  rw [data_fwrite_good K g td (by rw [ht]; exact hf.1) (by rw [ht]; exact hf.2)]
  show 12 + tbl_get_total_len K td * _ + _ = _
  rw [recBody_total, ht]
  have hn : ((elementCount K td).toNat : Int) = elementCount K td := Int.toNat_of_nonneg hf.1
  have hc : (((elementCount K td).toNat * TFLAGS2BYTES K td.td_flags : Nat) : Int)
      = elementCount K td * (TFLAGS2BYTES K td.td_flags : Nat) := by
    push_cast; rw [hn]
  generalize (elementCount K td).toNat * TFLAGS2BYTES K td.td_flags = m at hc
  rw [← hc]
  unfold yypad64
  omega

theorem exSession_session : Session flexConsts exSession :=
  Session.hdr emptyFile exVersion exName (fun _ => rfl) rfl (by decide)

theorem exScalar_fits : Fits flexConsts exScalar := by
  unfold Fits; decide

/-- Witness for C1: the scalar table of five 4-byte elements written right
after the header takes `12 + 20` bytes and no padding. -/
theorem data_fwrite_returns_padded_size_witness :
    (yytbl_data_fwrite flexConsts exSession exScalar).1 = 12 + 5 * 4 + 0 ∧
      (yytbl_data_fwrite flexConsts exSession exScalar).2.total_written % 8 = 0 :=
  data_fwrite_returns_padded_size flexConsts exSession exScalar exSession_session exScalar_fits

/-- C2: a header made by `yytbl_hdr_init` and written by `yytbl_hdr_fwrite` to
a freshly initialised writer, on a sink that accepts every write, returns
exactly `th_hsize`, and that many bytes are appended to the sink. The strings
are short enough for the size to be representable in the `int` result. -/
theorem hdr_fwrite_returns_hsize (f : FILE) (version name : CString)
    (hok : ∀ n, f.ok n = true) (hend : f.pos = f.content.length)
    (hs : hdrRaw version name + 7 < 2 ^ 31) :
    (yytbl_hdr_fwrite (yytbl_writer_init f).2 (yytbl_hdr_init version name).2).1
        = ((yytbl_hdr_init version name).2.th_hsize : Nat) ∧
      ∃ bs : List Nat, bs.length = (yytbl_hdr_init version name).2.th_hsize ∧
        (yytbl_hdr_fwrite (yytbl_writer_init f).2 (yytbl_hdr_init version name).2).2.out.content
          = f.content ++ bs := by
  rw [hdr_fwrite_fresh f version name hok hend hs]
  refine ⟨rfl, hdrBytes version name, ?_, hdr_fwrite_fresh_content f version name⟩
  rw [hdrBytes_length, hdr_init_hsize version name hs]

/-- Witness for C2: version `"2.6.0"` and name `"M"` on an empty sink. -/
theorem hdr_fwrite_returns_hsize_witness :
    (yytbl_hdr_fwrite (yytbl_writer_init emptyFile).2 (yytbl_hdr_init exVersion exName).2).1
        = ((yytbl_hdr_init exVersion exName).2.th_hsize : Nat) ∧
      ∃ bs : List Nat, bs.length = (yytbl_hdr_init exVersion exName).2.th_hsize ∧
        (yytbl_hdr_fwrite (yytbl_writer_init emptyFile).2
            (yytbl_hdr_init exVersion exName).2).2.out.content
          = emptyFile.content ++ bs :=
  hdr_fwrite_returns_hsize emptyFile exVersion exName (fun _ => rfl) rfl (by decide)

/-- C10: the bytes that `yytbl_hdr_fwrite` writes for a header made by
`yytbl_hdr_init` on a fresh session are the magic `F1 3C 57 B1`, `th_hsize` in
4 bytes big-endian, 4 zero bytes of section size, 2 zero bytes of flags, the
version and a NUL, the name and a NUL, and zero bytes up to a multiple of 8;
so the first 4 bytes written are the magic constant. -/
theorem hdr_fwrite_bytes (f : FILE) (version name : CString)
    (hok : ∀ n, f.ok n = true) (hend : f.pos = f.content.length)
    (hs : hdrRaw version name + 7 < 2 ^ 31) :
    (yytbl_hdr_fwrite (yytbl_writer_init f).2 (yytbl_hdr_init version name).2).2.out.content
        = f.content ++ hdrBytes version name ∧
      (hdrBytes version name).length % 8 = 0 ∧
      (hdrBytes version name).take 4 = [0xF1, 0x3C, 0x57, 0xB1] ∧
      (((yytbl_hdr_fwrite (yytbl_writer_init f).2
          (yytbl_hdr_init version name).2).2.out.content.drop f.content.length).take 4
        = [0xF1, 0x3C, 0x57, 0xB1]) := by
  rw [hdr_fwrite_fresh f version name hok hend hs]
  have hc := hdr_fwrite_fresh_content f version name
  have ht : (hdrBytes version name).take 4 = [0xF1, 0x3C, 0x57, 0xB1] := by
    simp [hdrBytes]
  refine ⟨hc, ?_, ht, ?_⟩
  · rw [hdrBytes_length]; unfold yypad64; omega
  · show ((pushZeros _ _).out.content.drop _).take 4 = _
    rw [hc, List.drop_left, ht]

/-- Witness for C10: version `"2.6.0"`, name `"M"`, empty sink: the 24 bytes of
the header. -/
theorem hdr_fwrite_bytes_witness :
    exSession.out.content
        = [0xF1, 0x3C, 0x57, 0xB1, 0, 0, 0, 24, 0, 0, 0, 0, 0, 0,
            50, 46, 54, 46, 48, 0, 77, 0, 0, 0] ∧
      exSession.out.content.take 4 = [0xF1, 0x3C, 0x57, 0xB1] :=
  ⟨(hdr_fwrite_bytes emptyFile exVersion exName (fun _ => rfl) rfl (by decide)).1,
    (hdr_fwrite_bytes emptyFile exVersion exName (fun _ => rfl) rfl (by decide)).2.2.2⟩

theorem encodeBE_one (x : Int) : [to_uint8 x] = encodeBE 1 x := by
  simp [encodeBE, to_uint8]

theorem encodeBE_two (x : Int) : be16 (to_uint16 x) = encodeBE 2 x := by
  simp only [encodeBE, be16, to_uint16, List.range, List.range.loop, List.map]
  congr 1
  · omega
  · congr 1; omega

theorem encodeBE_four (x : Int) : be32 (to_uint32 x) = encodeBE 4 x := by
  simp only [encodeBE, be32, to_uint32, List.range, List.range.loop, List.map]
  congr 1
  · omega
  · congr 1
    · omega
    · congr 1
      · omega
      · congr 1; omega

theorem elemBytes_eq_encodeBE (K : Consts) (td : yytbl_data) (i : Int) :
    elemBytes K td i = encodeBE (TFLAGS2BYTES K td.td_flags) (yytbl_data_geti K td i) := by
  unfold elemBytes
  rcases TFLAGS2BYTES_cases K td.td_flags with w | w | w
  · simp only [w]; exact encodeBE_one _
  · simp only [w]; exact encodeBE_two _
  · simp only [w]; exact encodeBE_four _

theorem elemsBytes_eq_flatMap (K : Consts) (td : yytbl_data) (n : Nat) (i : Int) :
    elemsBytes K td n i = (List.range n).flatMap
      (fun k => encodeBE (TFLAGS2BYTES K td.td_flags) (yytbl_data_geti K td (i + k))) := by
  induction n generalizing i with
  | zero => simp [elemsBytes]
  | succ n ih =>
    rw [elemsBytes, ih, List.range_succ_eq_map, List.flatMap_cons, List.flatMap_map,
      elemBytes_eq_encodeBE]
    simp only [Nat.cast_zero, add_zero, Nat.succ_eq_add_one, Nat.cast_add, Nat.cast_one]
    congr 2
    funext k
    congr 2
    ring

theorem overwrite_split (c bs : List Nat) (p L : Nat) (h : p + bs.length ≤ L) :
    overwrite c p bs = overwrite (c.take L) p bs ++ c.drop L := by
  unfold overwrite
  rw [List.take_take, List.drop_take, Nat.min_eq_left (by omega), List.append_assoc,
    List.append_assoc, List.append_assoc]
  congr 2
  have e : c.drop L = (c.drop (p + bs.length)).drop (L - (p + bs.length)) := by
    rw [List.drop_drop]; congr 1; omega
  rw [e, List.take_append_drop]

theorem overwrite_drop (c bs : List Nat) (p L : Nat) (h : p + bs.length ≤ L)
    (hL : L ≤ c.length) : (overwrite c p bs).drop L = c.drop L := by
  rw [overwrite_split c bs p L h]
  have hl : (overwrite (c.take L) p bs).length = L := by
    rw [overwrite_length _ _ _ (by rw [List.length_take]; omega), List.length_take]
    omega
  exact List.drop_left' hl

theorem decode_encode_one (x : Int) (h0 : -2 ^ 7 ≤ x) (h1 : x < 2 ^ 7) :
    decodeBE (encodeBE 1 x) = x := by
  simp only [encodeBE, decodeBE, List.range, List.range.loop, List.map, List.foldl,
    List.length_cons, List.length_nil]
  norm_num
  split <;> omega

theorem decode_encode_two (x : Int) (h0 : -2 ^ 15 ≤ x) (h1 : x < 2 ^ 15) :
    decodeBE (encodeBE 2 x) = x := by
  simp only [encodeBE, decodeBE, List.range, List.range.loop, List.map, List.foldl,
    List.length_cons, List.length_nil]
  norm_num
  split <;> omega

theorem decode_encode_four (x : Int) (h0 : -2 ^ 31 ≤ x) (h1 : x < 2 ^ 31) :
    decodeBE (encodeBE 4 x) = x := by
  simp only [encodeBE, decodeBE, List.range, List.range.loop, List.map, List.foldl,
    List.length_cons, List.length_nil]
  norm_num
  split <;> omega

theorem decode_encode_geti (K : Consts) (td : yytbl_data) (i : Int) :
    decodeBE (encodeBE (TFLAGS2BYTES K td.td_flags) (yytbl_data_geti K td i))
      = yytbl_data_geti K td i := by
  unfold yytbl_data_geti
  rcases TFLAGS2BYTES_cases K td.td_flags with w | w | w
  · simp only [w]
    exact decode_encode_one _ (by unfold to_int8; omega) (by unfold to_int8; omega)
  · simp only [w]
    exact decode_encode_two _ (by unfold to_int16; omega) (by unfold to_int16; omega)
  · simp only [w]
    exact decode_encode_four _ (by unfold to_int32; omega) (by unfold to_int32; omega)

theorem recBody_content_spec (K : Consts) (wr : yytbl_writer) (td : yytbl_data)
    (hf : Fits K td) :
    (recBody K wr td).out.content = wr.out.content ++ recordBytes K td := by
  rw [recBody_content, fits_total_len K td hf, elemsBytes_eq_flatMap, encodeBE_two,
    encodeBE_two, encodeBE_four, encodeBE_four]
  simp [recordBytes]

theorem recBody_pad (K : Consts) (wr : yytbl_writer) (td : yytbl_data) (hf : Fits K td) :
    yypad64 (recBody K wr td).total_written = recordPad K wr td := by
  rw [recBody_total, fits_total_len K td hf]
  unfold recordPad yypad64
  omega

theorem data_fwrite_state (K : Consts) {wr : yytbl_writer} (g : Good wr) (td : yytbl_data)
    (hf : Fits K td) :
    (yytbl_data_fwrite K wr td).2
      = patched (pushZeros (recordPad K wr td) (recBody K wr td)) := by
  have ht := fits_total_len K td hf
  rw [data_fwrite_good K g td (by rw [ht]; exact hf.1) (by rw [ht]; exact hf.2),
    recBody_pad K wr td hf]

theorem data_fwrite_content (K : Consts) {wr : yytbl_writer} (g : Good wr) (td : yytbl_data)
    (hf : Fits K td) :
    (yytbl_data_fwrite K wr td).2.out.content
      = overwrite (wr.out.content ++ recordBytes K td ++ List.replicate (recordPad K wr td) 0)
          wr.th_ssize_pos (be32 (yytbl_data_fwrite K wr td).2.total_written) := by
  rw [data_fwrite_state K g td hf]
  have gz := good_pushZeros (recordPad K wr td) (good_recBody K g td)
  show overwrite _ _ _ = _
  rw [pushZeros_content, recBody_content_spec K wr td hf, pushZeros_anchor, recBody_anchor,
    to_uint32_natCast, Nat.mod_eq_of_lt gz.2.2]
  rfl

theorem recordBytes_length (K : Consts) (td : yytbl_data) (hf : Fits K td) :
    (recordBytes K td).length
      = 12 + (elementCount K td).toNat * TFLAGS2BYTES K td.td_flags := by
  have h1 := recBody_content_spec K emptyWriter td hf
  rw [recBody_content, fits_total_len K td hf] at h1
  rw [← List.append_cancel_left h1]
  simp only [List.length_append, elemsBytes_length, be16, be32, List.length_cons,
    List.length_nil]

/-- C9: on a sink that accepts every write, `yytbl_data_fwrite` appends
`td_id` and `td_flags` in 2 bytes each, `td_hilen` and `td_lolen` in 4 bytes
each, all big-endian, then each element `yytbl_data_geti (td, i)` in buffer
order as a two's-complement big-endian field of the declared width, then zero
bytes up to the next multiple of 8 of the byte count; each element field
decodes by sign extension to `yytbl_data_geti (td, i)`. The anchor of the
section-size field lies in the bytes written before the call, and the record
fits. -/
theorem data_fwrite_appends_record (K : Consts) (wr : yytbl_writer) (td : yytbl_data)
    (g : Good wr) (ha : wr.th_ssize_pos + 4 ≤ wr.out.content.length) (hf : Fits K td) :
    (yytbl_data_fwrite K wr td).2.out.content.drop wr.out.content.length
        = recordBytes K td ++ List.replicate (recordPad K wr td) 0 ∧
      (wr.total_written + (recordBytes K td).length + recordPad K wr td) % 8 = 0 ∧
      ∀ i : Int, decodeBE (encodeBE (TFLAGS2BYTES K td.td_flags) (yytbl_data_geti K td i))
        = yytbl_data_geti K td i := by
  refine ⟨?_, ?_, decode_encode_geti K td⟩
  · rw [data_fwrite_content K g td hf, overwrite_drop _ _ _ _ (by simpa [be32] using ha)
      (by simp only [List.length_append]; omega), List.append_assoc, List.drop_left]
  · rw [recordBytes_length K td hf]
    unfold recordPad yypad64
    omega

/-- Witness for C9: the scalar table `[0, 1, 2, 3, 300]` of width 4 written
after the header. -/
theorem data_fwrite_appends_record_witness :
    (yytbl_data_fwrite flexConsts exSession exScalar).2.out.content.drop 24
        = [0, 1, 0, 4, 0, 0, 0, 0, 0, 0, 0, 5,
            0, 0, 0, 0, 0, 0, 0, 1, 0, 0, 0, 2, 0, 0, 0, 3, 0, 0, 1, 44] ++ [] ∧
      (exSession.total_written + 32 + 0) % 8 = 0 ∧
      ∀ i : Int, decodeBE (encodeBE 4 (yytbl_data_geti flexConsts exScalar i))
        = yytbl_data_geti flexConsts exScalar i :=
  data_fwrite_appends_record flexConsts exSession exScalar
    (session_inv flexConsts exSession exSession_session).1
    (session_inv flexConsts exSession exSession_session).2.2 exScalar_fits

theorem readBE32_overwrite (c : List Nat) (p v : Nat) (hp : p ≤ c.length) (hv : v < 2 ^ 32) :
    readBE32 (overwrite c p (be32 v)) p = v := by
  have hl : (c.take p).length = p := by rw [List.length_take]; omega
  have e : ∀ k x (l : List Nat), (c.take p ++ l).getD (p + k) x = l.getD k x := by
    intro k x l
    rw [List.getD_append_right _ _ _ _ (by omega)]
    congr 1
    omega
  have e0 := e 0
  simp only [add_zero] at e0
  simp only [readBE32, overwrite, List.append_assoc, e, e0, be32, List.cons_append,
    List.nil_append, List.getD_cons_zero, List.getD_cons_succ]
  omega

theorem data_fwrite_total (K : Consts) {wr : yytbl_writer} (g : Good wr) (td : yytbl_data)
    (hf : Fits K td) :
    ((yytbl_data_fwrite K wr td).2.total_written : Int)
      = (wr.total_written + (yytbl_data_fwrite K wr td).1) % 2 ^ 32 := by
  have ht := fits_total_len K td hf
  rw [data_fwrite_good K g td (by rw [ht]; exact hf.1) (by rw [ht]; exact hf.2)]
  show ((pushZeros _ _).total_written : Int) = _
  rw [pushZeros_total _ _ (good_recBody K g td).2.2, recBody_total]
  have hn : ((tbl_get_total_len K td).toNat : Int) = tbl_get_total_len K td :=
    Int.toNat_of_nonneg (by rw [ht]; exact hf.1)
  have hc : (((tbl_get_total_len K td).toNat * TFLAGS2BYTES K td.td_flags : Nat) : Int)
      = tbl_get_total_len K td * (TFLAGS2BYTES K td.td_flags : Nat) := by
    push_cast; rw [hn]
  generalize (tbl_get_total_len K td).toNat * TFLAGS2BYTES K td.td_flags = m at hc ⊢
  simp only [← hc]
  omega

theorem data_fwrite_section_size (K : Consts) {wr : yytbl_writer} (h : SessionInv wr)
    (td : yytbl_data) (hf : Fits K td) :
    readBE32 (yytbl_data_fwrite K wr td).2.out.content wr.th_ssize_pos
      = (yytbl_data_fwrite K wr td).2.total_written := by
  rw [data_fwrite_content K h.1 td hf]
  have ha := h.2.2
  exact readBE32_overwrite _ _ _ (by simp only [List.length_append]; omega)
    (sessionInv_tbl K wr td h hf).1.2.2

theorem data_fwrite_anchor (K : Consts) {wr : yytbl_writer} (g : Good wr) (td : yytbl_data)
    (hf : Fits K td) : (yytbl_data_fwrite K wr td).2.th_ssize_pos = wr.th_ssize_pos := by
  rw [data_fwrite_state K g td hf]
  show (pushZeros _ _).th_ssize_pos = _
  rw [pushZeros_anchor, recBody_anchor]

theorem sessionStart_total (f : FILE) (version name : CString) (hok : ∀ n, f.ok n = true)
    (hend : f.pos = f.content.length) (hs : hdrRaw version name + 7 < 2 ^ 31) :
    (sessionStart f version name).total_written = (yytbl_hdr_init version name).2.th_hsize ∧
      (sessionStart f version name).th_ssize_pos = f.content.length + 8 := by
  unfold sessionStart
  rw [hdr_fwrite_fresh f version name hok hend hs]
  have g := good_hdrBody (good_writer_init f hok hend) (yytbl_hdr_init version name).2
  refine ⟨?_, ?_⟩
  · show (pushZeros _ _).total_written = _
    rw [pushZeros_total _ _ g.2.2, hdrBody_total, hdr_init_hsize version name hs]
    simp only [yytbl_writer_init, yytbl_hdr_init, copy_string, yypad64, hdrRaw] at *
    omega
  · show (pushZeros _ _).th_ssize_pos = _
    rw [pushZeros_anchor, hdrBody_anchor]
    simp [yytbl_writer_init, hend]

/-- C8, as the code behaves: after a header and two table records, the
section-size field re-read from the sink is the header size plus the two byte
counts returned by `yytbl_data_fwrite` (the cumulative count of the session,
as a 32-bit value). -/
theorem section_size_is_cumulative (K : Consts) (f : FILE) (version name : CString)
    (td1 td2 : yytbl_data) (hok : ∀ n, f.ok n = true) (hend : f.pos = f.content.length)
    (hs : hdrRaw version name + 7 < 2 ^ 31) (hf1 : Fits K td1) (hf2 : Fits K td2) :
    (readBE32
        (yytbl_data_fwrite K (yytbl_data_fwrite K (sessionStart f version name) td1).2
          td2).2.out.content (f.content.length + 8) : Int)
      = (((yytbl_hdr_init version name).2.th_hsize : Nat)
          + (yytbl_data_fwrite K (sessionStart f version name) td1).1
          + (yytbl_data_fwrite K (yytbl_data_fwrite K (sessionStart f version name) td1).2
              td2).1) % 2 ^ 32 := by
  have i0 : SessionInv (sessionStart f version name) := sessionInv_hdr f version name hok hend hs
  have i1 := sessionInv_tbl K _ td1 i0 hf1
  obtain ⟨t0, a0⟩ := sessionStart_total f version name hok hend hs
  have a1 := data_fwrite_anchor K i0.1 td1 hf1
  have s2 := data_fwrite_section_size K i1 td2 hf2
  rw [a1, a0] at s2
  rw [s2, data_fwrite_total K i1.1 td2 hf2, data_fwrite_total K i0.1 td1 hf1, t0]
  omega

/-- Witness for the amended C8: header of 24 bytes, records of 32 and 64 bytes,
section size 120. -/
theorem section_size_is_cumulative_witness :
    (readBE32
        (yytbl_data_fwrite flexConsts
          (yytbl_data_fwrite flexConsts (sessionStart emptyFile exVersion exName) exScalar).2
          exPaired).2.out.content (emptyFile.content.length + 8) : Int)
      = (((yytbl_hdr_init exVersion exName).2.th_hsize : Nat)
          + (yytbl_data_fwrite flexConsts (sessionStart emptyFile exVersion exName) exScalar).1
          + (yytbl_data_fwrite flexConsts
              (yytbl_data_fwrite flexConsts (sessionStart emptyFile exVersion exName) exScalar).2
              exPaired).1) % 2 ^ 32 :=
  section_size_is_cumulative flexConsts emptyFile exVersion exName exScalar exPaired
    (fun _ => rfl) rfl (by decide) exScalar_fits (by unfold Fits; decide)

set_option maxRecDepth 8000 in
/-- Counterexample to C8 as stated: after the 24-byte header, a record of 32
bytes and a record of 64 bytes, the section-size field holds 120, not 96. -/
theorem section_size_counterexample :
    (yytbl_data_fwrite flexConsts (sessionStart emptyFile exVersion exName) exScalar).1 = 32 ∧
      (yytbl_data_fwrite flexConsts
        (yytbl_data_fwrite flexConsts (sessionStart emptyFile exVersion exName) exScalar).2
        exPaired).1 = 64 ∧
      readBE32
        (yytbl_data_fwrite flexConsts
          (yytbl_data_fwrite flexConsts (sessionStart emptyFile exVersion exName) exScalar).2
          exPaired).2.out.content 8 = 120 ∧
      ¬ ((readBE32
          (yytbl_data_fwrite flexConsts
            (yytbl_data_fwrite flexConsts (sessionStart emptyFile exVersion exName) exScalar).2
            exPaired).2.out.content 8 : Int)
        = (yytbl_data_fwrite flexConsts (sessionStart emptyFile exVersion exName) exScalar).1
          + (yytbl_data_fwrite flexConsts
              (yytbl_data_fwrite flexConsts (sessionStart emptyFile exVersion exName)
                exScalar).2 exPaired).1) := by
  refine ⟨rfl, rfl, rfl, ?_⟩
  show ¬ (((120 : Nat) : Int) = 32 + 64)
  decide

theorem and_mod_two_pow16 (a b : Nat) (hb : b < 2 ^ 16) : (a % 2 ^ 16) &&& b = a &&& b := by
  apply Nat.eq_of_testBit_eq
  intro i
  simp only [Nat.testBit_and, Nat.testBit_mod_two_pow]
  by_cases h : i < 16
  · simp [h]
  · have : b.testBit i = false :=
      Nat.testBit_lt_two_pow (lt_of_lt_of_le hb (Nat.pow_le_pow_right (by decide) (by omega)))
    simp [h, this]

theorem or_and_self (x d : Nat) : (x ||| d) &&& d = d := by
  apply Nat.eq_of_testBit_eq
  intro i
  simp only [Nat.testBit_and, Nat.testBit_or]
  cases x.testBit i <;> cases d.testBit i <;> rfl

theorem clrdata_and_data8 (K : Consts) (f : Nat) (h8 : K.YYT_DATA8 < 2 ^ 16) :
    TFLAGS_CLRDATA K f &&& K.YYT_DATA8 = 0 := by
  unfold TFLAGS_CLRDATA
  apply Nat.eq_of_testBit_eq
  intro i
  have h1 : (2 ^ 16 - 1).testBit i = decide (i < 16) := Nat.testBit_two_pow_sub_one 16 i
  simp only [Nat.testBit_and, Nat.testBit_or, Nat.testBit_xor, Nat.testBit_mod_two_pow, h1,
    Nat.zero_testBit]
  by_cases h : i < 16
  · simp only [h, decide_True, Bool.true_and]
    cases f.testBit i <;> cases K.YYT_DATA8.testBit i <;> cases K.YYT_DATA16.testBit i <;>
      cases K.YYT_DATA32.testBit i <;> rfl
  · have : K.YYT_DATA8.testBit i = false :=
      Nat.testBit_lt_two_pow (lt_of_lt_of_le h8 (Nat.pow_le_pow_right (by decide) (by omega)))
    simp [h, this]

theorem or_and_distrib (x y d : Nat) : (x ||| y) &&& d = (x &&& d) ||| (y &&& d) := by
  apply Nat.eq_of_testBit_eq
  intro i
  simp only [Nat.testBit_and, Nat.testBit_or]
  cases x.testBit i <;> cases y.testBit i <;> cases d.testBit i <;> rfl

theorem to_uint16_natCast (n : Nat) : to_uint16 (n : Int) = n % 2 ^ 16 := by
  unfold to_uint16; omega

theorem TFLAGS2BYTES_new_flags (K : Consts) (hK : K.Sane) (f s : Nat) (hs : s = 1 ∨ s = 2) :
    TFLAGS2BYTES K (to_uint16 ((TFLAGS_CLRDATA K f ||| BYTES2TFLAG K s : Nat) : Int)) = s := by
  obtain ⟨n8, n16, d, b8, b16⟩ := hK
  rw [to_uint16_natCast]
  unfold TFLAGS2BYTES
  rw [and_mod_two_pow16 _ _ b8, and_mod_two_pow16 _ _ b16]
  rcases hs with rfl | rfl
  · have e : BYTES2TFLAG K 1 = K.YYT_DATA8 := by simp [BYTES2TFLAG]
    rw [e, or_and_self]
    simp [n8]
  · have e : BYTES2TFLAG K 2 = K.YYT_DATA16 := by simp [BYTES2TFLAG]
    rw [e, or_and_self, or_and_distrib, clrdata_and_data8 K f b8, d]
    simp [n16]

theorem geti_eq_narrow (K : Consts) (tbl : yytbl_data) (i : Int) :
    yytbl_data_geti K tbl i = narrow (TFLAGS2BYTES K tbl.td_flags) (cell tbl.td_data i) := by
  unfold yytbl_data_geti narrow
  rcases TFLAGS2BYTES_cases K tbl.td_flags with w | w | w <;> simp [w]

theorem seti_eq_narrow (K : Consts) (tbl : yytbl_data) (i v : Int) :
    yytbl_data_seti K tbl i v
      = { tbl with td_data := setCell tbl.td_data i (narrow (TFLAGS2BYTES K tbl.td_flags) v) } := by
  unfold yytbl_data_seti narrow
  rcases TFLAGS2BYTES_cases K tbl.td_flags with w | w | w <;> simp [w]

theorem compress_loop_data (K : Consts) (tbl : yytbl_data) (n : Nat) (pre post : List Int)
    (nt : yytbl_data) (h : nt.td_data = pre ++ List.replicate n 0 ++ post) :
    compress_loop K tbl n pre.length nt
      = { nt with td_data := pre ++ (List.range n).map (fun k : Nat =>
            narrow (TFLAGS2BYTES K nt.td_flags) (yytbl_data_geti K tbl ((pre.length + k : Nat) : Int)))
            ++ post } := by
  induction n generalizing pre nt with
  | zero =>
    simp only [compress_loop, List.range_zero, List.map_nil, List.append_nil]
    simp only [List.replicate_zero, List.append_nil] at h
    rw [← h]
  | succ n ih =>
    have hs : setCell nt.td_data (pre.length : Int)
        (narrow (TFLAGS2BYTES K nt.td_flags) (yytbl_data_geti K tbl pre.length))
        = (pre ++ [narrow (TFLAGS2BYTES K nt.td_flags) (yytbl_data_geti K tbl pre.length)])
          ++ List.replicate n 0 ++ post := by
      unfold setCell
      rw [if_neg (by omega), h, Int.toNat_ofNat, List.replicate_succ, List.append_assoc,
        List.set_append_right _ _ (le_refl _)]
      simp
    have hl : ((pre ++ [narrow (TFLAGS2BYTES K nt.td_flags)
        (yytbl_data_geti K tbl pre.length)]).length : Int) = (pre.length : Int) + 1 := by
      simp
    rw [compress_loop, seti_eq_narrow, ← hl, ih _ _ hs]
    simp only [List.range_succ_eq_map, List.map_cons, List.map_map, List.length_append,
      List.length_singleton, List.append_assoc, List.singleton_append, Nat.add_zero]
    congr 4
    apply List.map_congr_left
    intro k _
    simp only [Function.comp, Nat.succ_eq_add_one]
    congr 3
    omega

theorem min_int_size_cases (K : Consts) (tbl : yytbl_data) :
    min_int_size K tbl = 1 ∨ min_int_size K tbl = 2 ∨ min_int_size K tbl = 4 := by
  unfold min_int_size
  simp only
  split
  · exact Or.inl rfl
  · split
    · exact Or.inr (Or.inl rfl)
    · exact Or.inr (Or.inr rfl)

theorem compress_eq (K : Consts) (hK : K.Sane) (tbl : yytbl_data) :
    yytbl_data_compress K tbl
      = if min_int_size K tbl < TFLAGS2BYTES K tbl.td_flags
        then reencoded K tbl (min_int_size K tbl) else tbl := by
  have hs := min_int_size_cases K tbl
  have hw := TFLAGS2BYTES_cases K tbl.td_flags
  have e1 : to_int32 ((min_int_size K tbl : Nat) : Int) = (min_int_size K tbl : Nat) := by
    rcases hs with h | h | h <;> rw [h] <;> decide
  have e2 : to_size_t ((min_int_size K tbl : Nat) : Int) = min_int_size K tbl := by
    rcases hs with h | h | h <;> rw [h] <;> decide
  unfold yytbl_data_compress
  simp only [e1, e2, Int.toNat_ofNat]
  by_cases hlt : min_int_size K tbl < TFLAGS2BYTES K tbl.td_flags
  · rw [if_neg (by omega), if_neg (by omega), if_pos hlt]
    have hs12 : min_int_size K tbl = 1 ∨ min_int_size K tbl = 2 := by omega
    have hl := compress_loop_data K tbl (tbl_get_total_len K tbl).toNat [] []
      { td_id := tbl.td_id,
        td_flags := to_uint16 ((TFLAGS_CLRDATA K tbl.td_flags
          ||| BYTES2TFLAG K (min_int_size K tbl) : Nat) : Int),
        td_hilen := tbl.td_hilen, td_lolen := tbl.td_lolen,
        td_data := List.replicate (tbl_get_total_len K tbl).toNat 0 } (by simp)
    simp only [List.length_nil, Nat.cast_zero, List.nil_append, List.append_nil, Nat.zero_add,
      TFLAGS2BYTES_new_flags K hK _ _ hs12] at hl
    simp only [yytbl_data_init]
    rw [hl]
    rfl
  · rw [if_neg hlt]
    by_cases heq : min_int_size K tbl = TFLAGS2BYTES K tbl.td_flags
    · rw [if_pos heq]
    · rw [if_neg heq, if_pos (by omega)]

theorem scan_le_iff (K : Consts) (tbl : yytbl_data) (n i : Nat) (m B : Int)
    (hi : i + n ≤ 2 ^ 31) :
    min_int_size_loop K tbl n i m ≤ B ↔
      m ≤ B ∧ ∀ k : Nat, k < n → c_abs (yytbl_data_geti K tbl ((i + k : Nat) : Int)) ≤ B := by
  induction n generalizing i m with
  | zero => simp [min_int_size_loop]
  | succ n ih =>
    have e1 : to_int32 (i : Int) = i := to_int32_of_range _ (by omega) (by omega)
    have e2 : to_uint32 ((i : Int) + 1) = i + 1 := by unfold to_uint32; omega
    simp only [min_int_size_loop, e1, e2]
    rw [ih (i + 1) _ (by omega)]
    constructor
    · rintro ⟨h1, h2⟩
      refine ⟨by split at h1 <;> omega, fun k hk => ?_⟩
      rcases Nat.eq_zero_or_pos k with rfl | hk0
      · simp only [Nat.add_zero]; split at h1 <;> omega
      · have := h2 (k - 1) (by omega)
        rwa [show i + 1 + (k - 1) = i + k by omega] at this
    · rintro ⟨h1, h2⟩
      refine ⟨?_, fun k hk => ?_⟩
      · have := h2 0 (by omega)
        simp only [Nat.add_zero] at this
        split <;> omega
      · have := h2 (k + 1) (by omega)
        rwa [show i + (k + 1) = i + 1 + k by omega] at this

theorem min_int_size_eq_one_iff (K : Consts) (tbl : yytbl_data)
    (h0 : 0 ≤ tbl_get_total_len K tbl) (h1 : tbl_get_total_len K tbl < 2 ^ 31) :
    min_int_size K tbl = 1 ↔
      ∀ k : Nat, k < (tbl_get_total_len K tbl).toNat → c_abs (yytbl_data_geti K tbl k) ≤ 127 := by
  have hn : to_uint32 (tbl_get_total_len K tbl) = (tbl_get_total_len K tbl).toNat := by
    unfold to_uint32; omega
  have hs := scan_le_iff K tbl (tbl_get_total_len K tbl).toNat 0 0 127 (by omega)
  simp only [Nat.zero_add] at hs
  unfold min_int_size
  simp only [hn, INT8_MAX, INT16_MAX]
  constructor
  · intro h
    by_cases hc : min_int_size_loop K tbl (tbl_get_total_len K tbl).toNat 0 0 ≤ 127
    · exact (hs.mp hc).2
    · rw [if_neg hc] at h
      split at h <;> omega
  · intro h
    rw [if_pos (hs.mpr ⟨by omega, h⟩)]

theorem min_int_size_le_two_iff (K : Consts) (tbl : yytbl_data)
    (h0 : 0 ≤ tbl_get_total_len K tbl) (h1 : tbl_get_total_len K tbl < 2 ^ 31) :
    min_int_size K tbl ≤ 2 ↔
      ∀ k : Nat, k < (tbl_get_total_len K tbl).toNat → c_abs (yytbl_data_geti K tbl k) ≤ 32767 := by
  have hn : to_uint32 (tbl_get_total_len K tbl) = (tbl_get_total_len K tbl).toNat := by
    unfold to_uint32; omega
  have hs := scan_le_iff K tbl (tbl_get_total_len K tbl).toNat 0 0 32767 (by omega)
  simp only [Nat.zero_add] at hs
  unfold min_int_size
  simp only [hn, INT8_MAX, INT16_MAX]
  constructor
  · intro h
    by_cases hc : min_int_size_loop K tbl (tbl_get_total_len K tbl).toNat 0 0 ≤ 32767
    · exact (hs.mp hc).2
    · rw [if_neg hc, if_neg (by omega)] at h
      omega
  · intro h
    have := hs.mpr ⟨by omega, h⟩
    split <;> omega

theorem reencoded_total_len (K : Consts) (tbl : yytbl_data) (s : Nat) :
    tbl_get_total_len K (reencoded K tbl s) = tbl_get_total_len K tbl := rfl

theorem geti_range (K : Consts) (tbl : yytbl_data) (i : Int) :
    -2 ^ 31 ≤ yytbl_data_geti K tbl i ∧ yytbl_data_geti K tbl i < 2 ^ 31 := by
  unfold yytbl_data_geti
  rcases TFLAGS2BYTES_cases K tbl.td_flags with w | w | w <;> simp only [w]
  · unfold to_int8; omega
  · unfold to_int16; omega
  · unfold to_int32; omega

theorem reencoded_geti (K : Consts) (hK : K.Sane) (tbl : yytbl_data) (s : Nat)
    (hs : s = 1 ∨ s = 2) (k : Nat) (hk : k < (tbl_get_total_len K tbl).toNat) :
    yytbl_data_geti K (reencoded K tbl s) k = narrow s (yytbl_data_geti K tbl k) := by
  have hf : TFLAGS2BYTES K (reencoded K tbl s).td_flags = s := TFLAGS2BYTES_new_flags K hK _ _ hs
  rw [geti_eq_narrow, hf]
  have hc : cell (reencoded K tbl s).td_data (k : Int) = narrow s (yytbl_data_geti K tbl k) := by
    unfold cell
    rw [if_neg (by omega), Int.toNat_ofNat]
    simp only [reencoded]
    rw [List.getD_eq_getElem _ _ (by simpa using hk)]
    simp
  rw [hc]
  rcases hs with rfl | rfl
  · simp only [narrow]; unfold to_int8; omega
  · simp only [narrow]; unfold to_int16; omega

theorem compress_reencoded_noop (K : Consts) (hK : K.Sane) (tbl : yytbl_data)
    (h0 : 0 ≤ tbl_get_total_len K tbl) (h1 : tbl_get_total_len K tbl < 2 ^ 31)
    (hlt : min_int_size K tbl < TFLAGS2BYTES K tbl.td_flags) :
    yytbl_data_compress K (reencoded K tbl (min_int_size K tbl))
      = reencoded K tbl (min_int_size K tbl) := by
  have hs12 : min_int_size K tbl = 1 ∨ min_int_size K tbl = 2 := by
    rcases min_int_size_cases K tbl with h | h | h
    · exact Or.inl h
    · exact Or.inr h
    · rcases TFLAGS2BYTES_cases K tbl.td_flags with w | w | w <;> omega
  have hf : TFLAGS2BYTES K (reencoded K tbl (min_int_size K tbl)).td_flags = min_int_size K tbl :=
    TFLAGS2BYTES_new_flags K hK _ _ hs12
  rw [compress_eq K hK, hf, if_neg]
  intro hc
  rcases hs12 with s1 | s2
  · rcases min_int_size_cases K (reencoded K tbl (min_int_size K tbl)) with h | h | h <;> omega
  · have hT1 : min_int_size K (reencoded K tbl (min_int_size K tbl)) = 1 := by
      rcases min_int_size_cases K (reencoded K tbl (min_int_size K tbl)) with h | h | h <;> omega
    rw [min_int_size_eq_one_iff K _ (by rw [reencoded_total_len]; exact h0)
      (by rw [reencoded_total_len]; exact h1), reencoded_total_len] at hT1
    have hle := (min_int_size_le_two_iff K tbl h0 h1).mp (by omega)
    have hne : ¬ min_int_size K tbl = 1 := by omega
    rw [min_int_size_eq_one_iff K tbl h0 h1] at hne
    push_neg at hne
    obtain ⟨k, hk, hgt⟩ := hne
    have h2 := hle k hk
    have h3 := hT1 k hk
    rw [reencoded_geti K hK tbl _ (Or.inr s2) k hk, s2] at h3
    have hr := geti_range K tbl k
    simp only [narrow] at h3
    unfold c_abs to_int32 to_int16 at *
    split at h2 <;> split at h3 <;> split at hgt <;> omega

theorem compress_idem (K : Consts) (hK : K.Sane) (tbl : yytbl_data)
    (h0 : 0 ≤ tbl_get_total_len K tbl) (h1 : tbl_get_total_len K tbl < 2 ^ 31) :
    yytbl_data_compress K (yytbl_data_compress K tbl) = yytbl_data_compress K tbl := by
  by_cases hlt : min_int_size K tbl < TFLAGS2BYTES K tbl.td_flags
  · have e : yytbl_data_compress K tbl = reencoded K tbl (min_int_size K tbl) := by
      rw [compress_eq K hK, if_pos hlt]
    rw [e]
    exact compress_reencoded_noop K hK tbl h0 h1 hlt
  · have e : yytbl_data_compress K tbl = tbl := by
      rw [compress_eq K hK, if_neg hlt]
    rw [e, e]

theorem c_abs_eq_natAbs (x : Int) (h : x ≠ -2 ^ 31) (h0 : -2 ^ 31 ≤ x) (h1 : x < 2 ^ 31) :
    c_abs x = (x.natAbs : Int) := by
  unfold c_abs to_int32
  split <;> omega

theorem foldl_max_le_iff (l : List Int) (m B : Int) :
    l.foldl max m ≤ B ↔ m ≤ B ∧ ∀ x ∈ l, x ≤ B := by
  induction l generalizing m with
  | nil => simp
  | cons a l ih =>
    simp only [List.foldl_cons, ih, List.mem_cons, forall_eq_or_imp, max_le_iff]
    tauto

theorem maxAbs_le_iff (K : Consts) (tbl : yytbl_data) (B : Int) (hB : 0 ≤ B) :
    maxAbs K tbl ≤ B ↔
      ∀ k : Nat, k < (elementCount K tbl).toNat →
        ((yytbl_data_geti K tbl (k : Int)).natAbs : Int) ≤ B := by
  unfold maxAbs
  rw [foldl_max_le_iff]
  simp only [List.mem_map, List.mem_range, forall_exists_index, and_imp,
    forall_apply_eq_imp_iff₂]
  exact ⟨fun h => h.2, fun h => ⟨hB, h⟩⟩

/-- Away from `INT32_MIN`, `min_int_size` is the minimal width of the maximum
absolute value. -/
theorem min_int_size_eq_minimalWidth (K : Consts) (tbl : yytbl_data)
    (h0 : 0 ≤ elementCount K tbl) (h1 : elementCount K tbl < 2 ^ 31)
    (hmin : ∀ k : Nat, k < (elementCount K tbl).toNat →
      yytbl_data_geti K tbl (k : Int) ≠ -2 ^ 31) :
    min_int_size K tbl = minimalWidth (maxAbs K tbl) := by
  have ht := total_len_eq K tbl h0 h1
  have a1 := min_int_size_eq_one_iff K tbl (by rw [ht]; exact h0) (by rw [ht]; exact h1)
  have a2 := min_int_size_le_two_iff K tbl (by rw [ht]; exact h0) (by rw [ht]; exact h1)
  rw [ht] at a1 a2
  have b1 := maxAbs_le_iff K tbl 127 (by omega)
  have b2 := maxAbs_le_iff K tbl 32767 (by omega)
  have conv : ∀ B : Int, (∀ k : Nat, k < (elementCount K tbl).toNat →
      c_abs (yytbl_data_geti K tbl (k : Int)) ≤ B) ↔
      (∀ k : Nat, k < (elementCount K tbl).toNat →
        ((yytbl_data_geti K tbl (k : Int)).natAbs : Int) ≤ B) := by
    intro B
    constructor
    · intro h k hk
      rw [← c_abs_eq_natAbs _ (hmin k hk) (geti_range K tbl k).1 (geti_range K tbl k).2]
      exact h k hk
    · intro h k hk
      rw [c_abs_eq_natAbs _ (hmin k hk) (geti_range K tbl k).1 (geti_range K tbl k).2]
      exact h k hk
  rw [conv 127, ← b1] at a1
  rw [conv 32767, ← b2] at a2
  unfold minimalWidth
  rcases min_int_size_cases K tbl with h | h | h
  · rw [h, if_pos (a1.mp h)]
  · have n1 : ¬ maxAbs K tbl ≤ 127 := fun hc => by have := a1.mpr hc; omega
    rw [h, if_neg n1, if_pos (a2.mp (by omega))]
  · have n1 : ¬ maxAbs K tbl ≤ 127 := fun hc => by have := a1.mpr hc; omega
    have n2 : ¬ maxAbs K tbl ≤ 32767 := fun hc => by have := a2.mpr hc; omega
    rw [h, if_neg n1, if_neg n2]

/-- The width after `yytbl_data_compress` is the smaller of the width before
and the width that `min_int_size` chooses. -/
theorem compress_width_eq_min (K : Consts) (hK : K.Sane) (tbl : yytbl_data) :
    TFLAGS2BYTES K (yytbl_data_compress K tbl).td_flags
      = min (TFLAGS2BYTES K tbl.td_flags) (min_int_size K tbl) := by
  rw [compress_eq K hK]
  by_cases hlt : min_int_size K tbl < TFLAGS2BYTES K tbl.td_flags
  · rw [if_pos hlt, Nat.min_eq_right (by omega)]
    refine TFLAGS2BYTES_new_flags K hK _ _ ?_
    rcases min_int_size_cases K tbl with h | h | h
    · exact Or.inl h
    · exact Or.inr h
    · rcases TFLAGS2BYTES_cases K tbl.td_flags with w | w | w <;> omega
  · rw [if_neg hlt, Nat.min_eq_left (by omega)]

/-- Away from `INT32_MIN`, `yytbl_data_compress` keeps the value of every
element. -/
theorem compress_preserves_geti (K : Consts) (hK : K.Sane) (tbl : yytbl_data)
    (h0 : 0 ≤ tbl_get_total_len K tbl) (h1 : tbl_get_total_len K tbl < 2 ^ 31)
    (hmin : ∀ k : Nat, k < (tbl_get_total_len K tbl).toNat →
      yytbl_data_geti K tbl (k : Int) ≠ -2 ^ 31)
    (k : Nat) (hk : k < (tbl_get_total_len K tbl).toNat) :
    yytbl_data_geti K (yytbl_data_compress K tbl) k = yytbl_data_geti K tbl k := by
  rw [compress_eq K hK]
  by_cases hlt : min_int_size K tbl < TFLAGS2BYTES K tbl.td_flags
  · rw [if_pos hlt]
    have hr := geti_range K tbl k
    have hm := hmin k hk
    rcases min_int_size_cases K tbl with h | h | h
    · rw [reencoded_geti K hK tbl _ (Or.inl h) k hk, h]
      have hb := (min_int_size_eq_one_iff K tbl h0 h1).mp h k hk
      simp only [narrow]
      unfold c_abs to_int32 at hb
      unfold to_int8
      split at hb <;> omega
    · rw [reencoded_geti K hK tbl _ (Or.inr h) k hk, h]
      have hb := (min_int_size_le_two_iff K tbl h0 h1).mp (by omega) k hk
      simp only [narrow]
      unfold c_abs to_int32 at hb
      unfold to_int16
      split at hb <;> omega
    · rcases TFLAGS2BYTES_cases K tbl.td_flags with w | w | w <;> omega
  · rw [if_neg hlt]

/-- The two subscripts that `yytbl_data_getijk` uses for `k = 0` and `k = 1`
lie `i * td_lolen + j + 1` apart. -/
theorem getijk_index_gap (tbl : yytbl_data) (i j : Int) :
    getijk_index tbl i j 1 - getijk_index tbl i j 0 = i * tbl.td_lolen + j + 1 := by
  have e0 : Int.tmod 0 2 = 0 := by decide
  have e1 : Int.tmod 1 2 = 1 := by decide
  simp only [getijk_index, e0, e1]
  ring

/-! ## Properties of the compressor and of the accessors -/

theorem flexConsts_sane : flexConsts.Sane := by
  unfold Consts.Sane; decide

/-- C5: `yytbl_data_compress` is idempotent: compressing twice gives the same
record (buffer, `td_flags`, dimensions and identifier) as compressing once,
for every record whose buffer holds the number of integers that its
dimensions give. -/
theorem compress_idempotent (K : Consts) (tbl : yytbl_data) (hK : K.Sane)
    (hb : Buffered K tbl) :
    yytbl_data_compress K (yytbl_data_compress K tbl) = yytbl_data_compress K tbl :=
  compress_idem K hK tbl (by rw [← hb.1]; exact Int.ofNat_nonneg _) hb.2

/-- Witness for C5: the scalar table `[0, 1, 2, 3, 300]` of width 4. -/
theorem compress_idempotent_witness :
    yytbl_data_compress flexConsts (yytbl_data_compress flexConsts exScalar)
      = yytbl_data_compress flexConsts exScalar :=
  compress_idempotent flexConsts exScalar flexConsts_sane (by unfold Buffered; decide)

/-- C3 at the failing input: a width-4 record holding `INT32_MIN` reads
`-2147483648` at index 0 before `yytbl_data_compress` and `0` after it. -/
theorem compress_loses_int32_min :
    tbl_get_total_len flexConsts exMin = 1 ∧
      yytbl_data_geti flexConsts exMin 0 = -2147483648 ∧
      yytbl_data_geti flexConsts (yytbl_data_compress flexConsts exMin) 0 = 0 := by
  decide

/-- C4 at the failing input: for a width-4 record holding `INT32_MIN` the
maximum absolute value is `2147483648`, whose minimal width is 4, yet the
width after `yytbl_data_compress` is 1. -/
theorem compress_width_int32_min :
    TFLAGS2BYTES flexConsts exMin.td_flags = 4 ∧
      minimalWidth (maxAbs flexConsts exMin) = 4 ∧
      TFLAGS2BYTES flexConsts (yytbl_data_compress flexConsts exMin).td_flags = 1 := by
  decide

/-- C6 at the failing input: for a record holding `INT32_MIN` the maximum
absolute value is `2147483648`, at least 32768, yet `min_int_size` returns 1. -/
theorem min_int_size_int32_min :
    maxAbs flexConsts exMin = 2147483648 ∧ min_int_size flexConsts exMin = 1 := by
  decide

/-- C7 at the failing input: in the paired-structure table with inner
dimension 3 and outer dimension 2 (12 integers), `yytbl_data_getijk` with
`i = 0`, `j = 1` addresses slot 1 for `k = 0` and slot 3 for `k = 1`, which
are not adjacent. -/
theorem getijk_slots_not_adjacent :
    tbl_get_total_len flexConsts exPaired = 12 ∧
      getijk_index exPaired 0 1 0 = 1 ∧ getijk_index exPaired 0 1 1 = 3 ∧
      yytbl_data_getijk flexConsts exPaired 0 1 0 = 1 ∧
      yytbl_data_getijk flexConsts exPaired 0 1 1 = 3 := by
  decide

/-! ## Properties of initialisation, failure paths, frames and sessions -/

/-- C11: `yytbl_hdr_init` sets `th_hsize` to `14 + len(version)+1 + len(name)+1`
rounded up to a multiple of 8 (divisible by 8, at least the sum, at most 7
more), `th_magic` to `0xF13C57B1` and `th_ssize`, `th_flags` to 0; it returns
0. The sum fits the 32-bit field. -/
theorem hdr_init_fields (version name : CString) (hs : hdrRaw version name + 7 < 2 ^ 32) :
    (yytbl_hdr_init version name).2.th_hsize % 8 = 0 ∧
      14 + (strlen version + 1) + (strlen name + 1) ≤ (yytbl_hdr_init version name).2.th_hsize ∧
      (yytbl_hdr_init version name).2.th_hsize ≤ 14 + (strlen version + 1) + (strlen name + 1) + 7 ∧
      (yytbl_hdr_init version name).2.th_magic = 0xF13C57B1 ∧
      (yytbl_hdr_init version name).2.th_ssize = 0 ∧
      (yytbl_hdr_init version name).2.th_flags = 0 ∧
      (yytbl_hdr_init version name).1 = 0 := by
  have e1 : to_uint32 (to_size_t (14 + (strlen version : Int) + 1 + (strlen name : Int) + 1) : Nat)
      = hdrRaw version name := by
    unfold to_uint32 to_size_t hdrRaw; unfold hdrRaw at hs; omega
  have hh : (yytbl_hdr_init version name).2.th_hsize
      = hdrRaw version name + yypad64 (hdrRaw version name) := by
    simp only [yytbl_hdr_init, e1]
    unfold to_uint32 yypad64; omega
  rw [hh]
  unfold hdrRaw yypad64 at *
  refine ⟨?_, ?_, ?_, rfl, rfl, rfl, rfl⟩ <;> omega

/-- Witness for C11: version `"2.6.0"` and name `"M"` give header size 24. -/
theorem hdr_init_fields_witness :
    (yytbl_hdr_init exVersion exName).2.th_hsize % 8 = 0 ∧
      14 + (strlen exVersion + 1) + (strlen exName + 1)
        ≤ (yytbl_hdr_init exVersion exName).2.th_hsize ∧
      (yytbl_hdr_init exVersion exName).2.th_hsize
        ≤ 14 + (strlen exVersion + 1) + (strlen exName + 1) + 7 ∧
      (yytbl_hdr_init exVersion exName).2.th_magic = 0xF13C57B1 ∧
      (yytbl_hdr_init exVersion exName).2.th_ssize = 0 ∧
      (yytbl_hdr_init exVersion exName).2.th_flags = 0 ∧
      (yytbl_hdr_init exVersion exName).1 = 0 :=
  hdr_init_fields exVersion exName (by decide)

/-- C12 at the failing input: on a sink whose seventh call (the write of the
name bytes) completes short, `yytbl_hdr_fwrite` returns `1`, not `-1`. -/
theorem hdr_fwrite_short_name_returns_one :
    (failAt 6).ok 6 = false ∧
      (yytbl_hdr_fwrite (yytbl_writer_init (failAt 6)).2
        (yytbl_hdr_init exVersion exName).2).2.out.calls = 7 ∧
      (yytbl_hdr_fwrite (yytbl_writer_init (failAt 6)).2
        (yytbl_hdr_init exVersion exName).2).1 = 1 := by
  decide

/-- C13 at the failing input: after a header written with success, on a sink
whose call number 25 (the first padding byte of the record) completes short,
`yytbl_data_fwrite` returns `59`, not `-1`. -/
theorem data_fwrite_short_padding_returns_count :
    (failAt 25).ok 25 = false ∧
      (yytbl_hdr_fwrite (yytbl_writer_init (failAt 25)).2
        (yytbl_hdr_init exVersion exName).2).1 = 24 ∧
      (yytbl_data_fwrite flexConsts
        (yytbl_hdr_fwrite (yytbl_writer_init (failAt 25)).2
          (yytbl_hdr_init exVersion exName).2).2 exPaired).1 = 59 := by
  decide

/-- C18 at the failing input: for the width-1 record holding `-128`,
`min_int_size` chooses width 2, larger than the declared width 1, and
`yytbl_data_compress` leaves the record as it is, which is also all it does in
the no-op case (the width-1 record holding `5`); the function has no other
result. -/
theorem compress_undersized_is_silent :
    min_int_size flexConsts exNeg128 = 2 ∧ TFLAGS2BYTES flexConsts exNeg128.td_flags = 1 ∧
      yytbl_data_compress flexConsts exNeg128 = exNeg128 ∧
      min_int_size flexConsts exFive = 1 ∧ TFLAGS2BYTES flexConsts exFive.td_flags = 1 ∧
      yytbl_data_compress flexConsts exFive = exFive := by
  decide

theorem testBit_false_of_lt16 (b i : Nat) (hb : b < 2 ^ 16) (h : ¬ i < 16) :
    b.testBit i = false :=
  Nat.testBit_lt_two_pow (lt_of_lt_of_le hb (Nat.pow_le_pow_right (by decide) (by omega)))

theorem new_flags_other_bits (K : Consts) (f s : Nat) (hf : f < 2 ^ 16) (i : Nat)
    (hm : (K.YYT_DATA8 ||| K.YYT_DATA16 ||| K.YYT_DATA32).testBit i = false) :
    (to_uint16 ((TFLAGS_CLRDATA K f ||| BYTES2TFLAG K s : Nat) : Int)).testBit i
      = f.testBit i := by
  rw [to_uint16_natCast]
  have h1 : (2 ^ 16 - 1).testBit i = decide (i < 16) := Nat.testBit_two_pow_sub_one 16 i
  simp only [Nat.testBit_or, Bool.or_eq_false_iff] at hm
  obtain ⟨⟨m8, m16⟩, m32⟩ := hm
  have hB : (BYTES2TFLAG K s).testBit i = false := by
    unfold BYTES2TFLAG
    split
    · exact m8
    · split
      · exact m16
      · exact m32
  simp only [TFLAGS_CLRDATA, Nat.testBit_mod_two_pow, Nat.testBit_or, Nat.testBit_and,
    Nat.testBit_xor, h1, hB, m8, m16, m32]
  by_cases h : i < 16
  · simp [h]
  · simp [h, testBit_false_of_lt16 f i hf h]

theorem and_eq_zero_of_disjoint (x a b : Nat) (hx : x &&& b = 0) (hab : a &&& b = 0) :
    (x ||| a) &&& b = 0 := by
  rw [or_and_distrib, hx, hab]; rfl

theorem and_comm_zero (a b : Nat) (h : a &&& b = 0) : b &&& a = 0 := by
  rw [Nat.land_comm]; exact h

theorem clrdata_and_data16 (K : Consts) (f : Nat) (h16 : K.YYT_DATA16 < 2 ^ 16) :
    TFLAGS_CLRDATA K f &&& K.YYT_DATA16 = 0 := by
  unfold TFLAGS_CLRDATA
  apply Nat.eq_of_testBit_eq
  intro i
  have h1 : (2 ^ 16 - 1).testBit i = decide (i < 16) := Nat.testBit_two_pow_sub_one 16 i
  simp only [Nat.testBit_and, Nat.testBit_or, Nat.testBit_xor, Nat.testBit_mod_two_pow, h1,
    Nat.zero_testBit]
  by_cases h : i < 16
  · simp only [h, decide_True, Bool.true_and]
    cases f.testBit i <;> cases K.YYT_DATA8.testBit i <;> cases K.YYT_DATA16.testBit i <;>
      cases K.YYT_DATA32.testBit i <;> rfl
  · simp [h, testBit_false_of_lt16 _ i h16 h]

theorem clrdata_and_data32 (K : Consts) (f : Nat) (h32 : K.YYT_DATA32 < 2 ^ 16) :
    TFLAGS_CLRDATA K f &&& K.YYT_DATA32 = 0 := by
  unfold TFLAGS_CLRDATA
  apply Nat.eq_of_testBit_eq
  intro i
  have h1 : (2 ^ 16 - 1).testBit i = decide (i < 16) := Nat.testBit_two_pow_sub_one 16 i
  simp only [Nat.testBit_and, Nat.testBit_or, Nat.testBit_xor, Nat.testBit_mod_two_pow, h1,
    Nat.zero_testBit]
  by_cases h : i < 16
  · simp only [h, decide_True, Bool.true_and]
    cases f.testBit i <;> cases K.YYT_DATA8.testBit i <;> cases K.YYT_DATA16.testBit i <;>
      cases K.YYT_DATA32.testBit i <;> rfl
  · simp [h, testBit_false_of_lt16 _ i h32 h]

/-- The width flags of the flags word that `yytbl_data_compress` stores for
the new width `s`. -/
theorem new_flags_width_bits (K : Consts) (hK : K.WidthFlags) (f s : Nat) :
    (s = 1 →
      to_uint16 ((TFLAGS_CLRDATA K f ||| BYTES2TFLAG K s : Nat) : Int) &&& K.YYT_DATA8 ≠ 0 ∧
      to_uint16 ((TFLAGS_CLRDATA K f ||| BYTES2TFLAG K s : Nat) : Int) &&& K.YYT_DATA16 = 0 ∧
      to_uint16 ((TFLAGS_CLRDATA K f ||| BYTES2TFLAG K s : Nat) : Int) &&& K.YYT_DATA32 = 0) ∧
    (s = 2 →
      to_uint16 ((TFLAGS_CLRDATA K f ||| BYTES2TFLAG K s : Nat) : Int) &&& K.YYT_DATA8 = 0 ∧
      to_uint16 ((TFLAGS_CLRDATA K f ||| BYTES2TFLAG K s : Nat) : Int) &&& K.YYT_DATA16 ≠ 0 ∧
      to_uint16 ((TFLAGS_CLRDATA K f ||| BYTES2TFLAG K s : Nat) : Int) &&& K.YYT_DATA32 = 0) := by
  obtain ⟨⟨n8, n16, d, b8, b16⟩, n32, b32, d328, d3216⟩ := hK
  rw [to_uint16_natCast, and_mod_two_pow16 _ _ b8, and_mod_two_pow16 _ _ b16,
    and_mod_two_pow16 _ _ b32]
  constructor
  · rintro rfl
    have e : BYTES2TFLAG K 1 = K.YYT_DATA8 := by simp [BYTES2TFLAG]
    rw [e]
    refine ⟨by rw [or_and_self]; exact n8, ?_, ?_⟩
    · exact and_eq_zero_of_disjoint _ _ _ (clrdata_and_data16 K f b16) (and_comm_zero _ _ d)
    · exact and_eq_zero_of_disjoint _ _ _ (clrdata_and_data32 K f b32) (and_comm_zero _ _ d328)
  · rintro rfl
    have e : BYTES2TFLAG K 2 = K.YYT_DATA16 := by simp [BYTES2TFLAG]
    rw [e]
    refine ⟨?_, by rw [or_and_self]; exact n16, ?_⟩
    · exact and_eq_zero_of_disjoint _ _ _ (clrdata_and_data8 K f b8) d
    · exact and_eq_zero_of_disjoint _ _ _ (clrdata_and_data32 K f b32) (and_comm_zero _ _ d3216)

theorem narrow_narrow (s : Nat) (x : Int) : narrow s (narrow s x) = narrow s x := by
  by_cases h1 : s = 1
  · subst h1; simp only [narrow]; unfold to_int8; omega
  · by_cases h2 : s = 2
    · subst h2; simp only [narrow]; unfold to_int16; omega
    · have e : ∀ y, narrow s y = to_int32 y := by
        intro y; unfold narrow; split <;> omega
      rw [e, e]; unfold to_int32; omega

/-- C14: `yytbl_data_compress` keeps `td_id`, `td_hilen`, `td_lolen`, the
element count of `tbl_get_total_len` and every bit of `td_flags` outside
`YYT_DATA8 | YYT_DATA16 | YYT_DATA32`; when it re-encodes the buffer, exactly
one of the three width flags is set afterwards, the one of the new width, and
the new buffer holds the same number of elements, each at that width. -/
theorem compress_frame (K : Consts) (tbl : yytbl_data) (hK : K.WidthFlags)
    (hf : tbl.td_flags < 2 ^ 16) :
    (yytbl_data_compress K tbl).td_id = tbl.td_id ∧
      (yytbl_data_compress K tbl).td_hilen = tbl.td_hilen ∧
      (yytbl_data_compress K tbl).td_lolen = tbl.td_lolen ∧
      tbl_get_total_len K (yytbl_data_compress K tbl) = tbl_get_total_len K tbl ∧
      (∀ i : Nat, (K.YYT_DATA8 ||| K.YYT_DATA16 ||| K.YYT_DATA32).testBit i = false →
        (yytbl_data_compress K tbl).td_flags.testBit i = tbl.td_flags.testBit i) ∧
      (min_int_size K tbl < TFLAGS2BYTES K tbl.td_flags →
        TFLAGS2BYTES K (yytbl_data_compress K tbl).td_flags = min_int_size K tbl ∧
        (min_int_size K tbl = 1 →
          (yytbl_data_compress K tbl).td_flags &&& K.YYT_DATA8 ≠ 0 ∧
          (yytbl_data_compress K tbl).td_flags &&& K.YYT_DATA16 = 0 ∧
          (yytbl_data_compress K tbl).td_flags &&& K.YYT_DATA32 = 0) ∧
        (min_int_size K tbl = 2 →
          (yytbl_data_compress K tbl).td_flags &&& K.YYT_DATA8 = 0 ∧
          (yytbl_data_compress K tbl).td_flags &&& K.YYT_DATA16 ≠ 0 ∧
          (yytbl_data_compress K tbl).td_flags &&& K.YYT_DATA32 = 0) ∧
        (min_int_size K tbl = 1 ∨ min_int_size K tbl = 2) ∧
        (yytbl_data_compress K tbl).td_data.length = (tbl_get_total_len K tbl).toNat ∧
        ∀ x ∈ (yytbl_data_compress K tbl).td_data, narrow (min_int_size K tbl) x = x) := by
  rw [compress_eq K hK.1]
  by_cases hlt : min_int_size K tbl < TFLAGS2BYTES K tbl.td_flags
  · have hs12 : min_int_size K tbl = 1 ∨ min_int_size K tbl = 2 := by
      rcases min_int_size_cases K tbl with h | h | h
      · exact Or.inl h
      · exact Or.inr h
      · rcases TFLAGS2BYTES_cases K tbl.td_flags with w | w | w <;> omega
    rw [if_pos hlt]
    refine ⟨rfl, rfl, rfl, rfl, fun i hi => new_flags_other_bits K _ _ hf i hi, fun _ =>
      ⟨TFLAGS2BYTES_new_flags K hK.1 _ _ hs12, (new_flags_width_bits K hK _ _).1,
        (new_flags_width_bits K hK _ _).2, hs12, by simp [reencoded], ?_⟩⟩
    intro x hx
    simp only [reencoded, List.mem_map, List.mem_range] at hx
    obtain ⟨k, _, rfl⟩ := hx
    exact narrow_narrow _ _
  · rw [if_neg hlt]
    exact ⟨rfl, rfl, rfl, rfl, fun _ _ => rfl, fun h => absurd h hlt⟩

theorem flexConsts_widthFlags : flexConsts.WidthFlags := by
  unfold Consts.WidthFlags Consts.Sane; decide

/-- Witness for C14: the scalar table `[0, 1, 2, 3, 300]` of width 4, which is
re-encoded at width 2. -/
theorem compress_frame_witness :
    (yytbl_data_compress flexConsts exScalar).td_id = 1 ∧
      (yytbl_data_compress flexConsts exScalar).td_flags &&& flexConsts.YYT_DATA16 ≠ 0 ∧
      (yytbl_data_compress flexConsts exScalar).td_data.length = 5 :=
  ⟨(compress_frame flexConsts exScalar flexConsts_widthFlags (by decide)).1,
    (((compress_frame flexConsts exScalar flexConsts_widthFlags (by decide)).2.2.2.2.2
      (by decide)).2.2.1 (by decide)).2.1,
    ((compress_frame flexConsts exScalar flexConsts_widthFlags (by decide)).2.2.2.2.2
      (by decide)).2.2.2.2.1⟩

theorem getijk_eq_narrow (K : Consts) (tbl : yytbl_data) (i j k : Int) :
    yytbl_data_getijk K tbl i j k
      = narrow (TFLAGS2BYTES K tbl.td_flags) (cell tbl.td_data (getijk_index tbl i j k)) := by
  unfold yytbl_data_getijk narrow
  rcases TFLAGS2BYTES_cases K tbl.td_flags with w | w | w <;> simp [w]

/-- C19: for every flags value `TFLAGS2BYTES` is 1, 2 or 4, so the `default`
branch of the width switches is never taken: `yytbl_data_geti`,
`yytbl_data_getijk` and `yytbl_data_seti` always act at one of the three
widths, and every iteration of the element loop of `yytbl_data_fwrite` writes
the element with one of the three writers and assigns `rv`. -/
theorem width_switch_default_unreachable (K : Consts) (tbl : yytbl_data) :
    (TFLAGS2BYTES K tbl.td_flags = 1 ∨ TFLAGS2BYTES K tbl.td_flags = 2 ∨
        TFLAGS2BYTES K tbl.td_flags = 4) ∧
      (∀ i : Int, yytbl_data_geti K tbl i
        = narrow (TFLAGS2BYTES K tbl.td_flags) (cell tbl.td_data i)) ∧
      (∀ i j k : Int, yytbl_data_getijk K tbl i j k
        = narrow (TFLAGS2BYTES K tbl.td_flags) (cell tbl.td_data (getijk_index tbl i j k))) ∧
      (∀ i v : Int, yytbl_data_seti K tbl i v
        = { tbl with td_data :=
              setCell tbl.td_data i (narrow (TFLAGS2BYTES K tbl.td_flags) v) }) ∧
      (∀ (wr : yytbl_writer) (n : Nat) (i : Int) (rv : Nat) (b : Int),
        data_fwrite_loop K tbl (n + 1) i rv b wr
          = if (write_elem K tbl wr i).1 < 0 then .error (write_elem K tbl wr i).2
            else data_fwrite_loop K tbl n (i + 1) (write_elem K tbl wr i).1
              (to_int32 (b + (write_elem K tbl wr i).1)) (write_elem K tbl wr i).2) := by
  refine ⟨TFLAGS2BYTES_cases K tbl.td_flags, geti_eq_narrow K tbl, getijk_eq_narrow K tbl,
    seti_eq_narrow K tbl, fun wr n i rv b => ?_⟩
  rcases TFLAGS2BYTES_cases K tbl.td_flags with w | w | w <;>
    simp [data_fwrite_loop, write_elem, w]

/-- C20: for `0 ≤ i < max(td_hilen,1)` and `0 ≤ j < td_lolen` the subscript of
`yytbl_data_getijk` is non-negative and below `tbl_get_total_len` for `k = 0`
in every table and for `k = 1` in a `YYT_ID_TRANSITION` table, and for `k = 0`
the function returns `yytbl_data_geti (tbl, i*td_lolen + j)`. The element count
is representable as `int32_t`. -/
theorem getijk_in_bounds (K : Consts) (tbl : yytbl_data) (i j : Int)
    (hi0 : 0 ≤ i) (hi : i < max tbl.td_hilen 1) (hj0 : 0 ≤ j) (hj : j < tbl.td_lolen)
    (hc : elementCount K tbl < 2 ^ 31) :
    (0 ≤ getijk_index tbl i j 0 ∧ getijk_index tbl i j 0 < tbl_get_total_len K tbl) ∧
      (tbl.td_id = K.YYT_ID_TRANSITION →
        0 ≤ getijk_index tbl i j 1 ∧ getijk_index tbl i j 1 < tbl_get_total_len K tbl) ∧
      getijk_index tbl i j 0 = i * tbl.td_lolen + j ∧
      yytbl_data_getijk K tbl i j 0 = yytbl_data_geti K tbl (i * tbl.td_lolen + j) := by
  have e0 : Int.tmod 0 2 = 0 := by decide
  have e1 : Int.tmod 1 2 = 1 := by decide
  have x0 : getijk_index tbl i j 0 = i * tbl.td_lolen + j := by
    simp only [getijk_index, e0]; ring
  have x1 : getijk_index tbl i j 1 = 2 * (i * tbl.td_lolen + j) + 1 := by
    simp only [getijk_index, e1]; ring
  have hm : (1 : Int) ≤ max tbl.td_hilen 1 := le_max_right _ _
  have hlo : 0 ≤ tbl.td_lolen := by omega
  have hil : 0 ≤ i * tbl.td_lolen := Int.mul_nonneg hi0 hlo
  have hcell : i * tbl.td_lolen + j < tbl.td_lolen * max tbl.td_hilen 1 := by
    have h1 : (i + 1) * tbl.td_lolen ≤ max tbl.td_hilen 1 * tbl.td_lolen :=
      Int.mul_le_mul_of_nonneg_right (by omega) hlo
    nlinarith
  have hcount0 : 0 ≤ elementCount K tbl := by
    unfold elementCount
    split
    · nlinarith
    · nlinarith
  have ht := total_len_eq K tbl hcount0 hc
  rw [ht, x0, x1]
  refine ⟨⟨by omega, ?_⟩, fun hid => ⟨by omega, ?_⟩, rfl, ?_⟩
  · unfold elementCount
    split
    · nlinarith
    · nlinarith
  · unfold elementCount
    rw [if_pos hid]
    nlinarith
  · rw [getijk_eq_narrow, geti_eq_narrow, x0]

/-- Witness for C20: cell `i = 1`, `j = 2` of the paired table with inner
dimension 3 and outer dimension 2. -/
theorem getijk_in_bounds_witness :
    (0 ≤ getijk_index exPaired 1 2 0 ∧
        getijk_index exPaired 1 2 0 < tbl_get_total_len flexConsts exPaired) ∧
      (exPaired.td_id = flexConsts.YYT_ID_TRANSITION →
        0 ≤ getijk_index exPaired 1 2 1 ∧
          getijk_index exPaired 1 2 1 < tbl_get_total_len flexConsts exPaired) ∧
      getijk_index exPaired 1 2 0 = 1 * exPaired.td_lolen + 2 ∧
      yytbl_data_getijk flexConsts exPaired 1 2 0
        = yytbl_data_geti flexConsts exPaired (1 * exPaired.td_lolen + 2) :=
  getijk_in_bounds flexConsts exPaired 1 2 (by decide) (by decide) (by decide) (by decide)
    (by decide)

/-- C15: each primitive writer, when the sink call succeeds, stores the bytes
of the value at the stream position (appending them when the position is the
end of the sink) most significant byte first, returns the number of bytes (1,
2, 4 or `len`) and adds that number to `total_written` (a 32-bit counter);
when the sink call is short it returns `-1` and leaves `total_written` as it
was. -/
theorem primitive_writers (wr : yytbl_writer) (v : Int) (bs : List Nat) (len : Int) :
    (wr.out.ok wr.out.calls = true →
      ((yytbl_fwrite8 wr v).1 = 1 ∧
        (yytbl_fwrite8 wr v).2.out.content = overwrite wr.out.content wr.out.pos (encodeBE 1 v) ∧
        (yytbl_fwrite8 wr v).2.total_written = (wr.total_written + 1) % 2 ^ 32) ∧
      ((yytbl_fwrite16 wr v).1 = 2 ∧
        (yytbl_fwrite16 wr v).2.out.content = overwrite wr.out.content wr.out.pos (encodeBE 2 v) ∧
        (yytbl_fwrite16 wr v).2.total_written = (wr.total_written + 2) % 2 ^ 32) ∧
      ((yytbl_fwrite32 wr v).1 = 4 ∧
        (yytbl_fwrite32 wr v).2.out.content = overwrite wr.out.content wr.out.pos (encodeBE 4 v) ∧
        (yytbl_fwrite32 wr v).2.total_written = (wr.total_written + 4) % 2 ^ 32) ∧
      (0 ≤ len → len < 2 ^ 31 → (bs.length : Int) = len →
        (yytbl_fwriten wr bs len).1 = len ∧
        (yytbl_fwriten wr bs len).2.out.content = overwrite wr.out.content wr.out.pos bs ∧
        (yytbl_fwriten wr bs len).2.total_written = (wr.total_written + bs.length) % 2 ^ 32) ∧
      (wr.out.pos = wr.out.content.length →
        ∀ b : List Nat, overwrite wr.out.content wr.out.pos b = wr.out.content ++ b)) ∧
    (wr.out.ok wr.out.calls = false →
      ((yytbl_fwrite8 wr v).1 = -1 ∧ (yytbl_fwrite8 wr v).2.total_written = wr.total_written) ∧
      ((yytbl_fwrite16 wr v).1 = -1 ∧ (yytbl_fwrite16 wr v).2.total_written = wr.total_written) ∧
      ((yytbl_fwrite32 wr v).1 = -1 ∧ (yytbl_fwrite32 wr v).2.total_written = wr.total_written) ∧
      (0 < len → len < 2 ^ 31 →
        (yytbl_fwriten wr bs len).1 = -1 ∧
        (yytbl_fwriten wr bs len).2.total_written = wr.total_written)) := by
  constructor
  · intro hok
    refine ⟨?_, ?_, ?_, ?_, ?_⟩
    · simp [yytbl_fwrite8, fwrite, hok, ← encodeBE_one, to_uint32_add_nat]
      rfl
    · simp [yytbl_fwrite16, fwrite, hok, ← encodeBE_two, to_uint32_add_nat]
      rfl
    · simp [yytbl_fwrite32, fwrite, hok, ← encodeBE_four, to_uint32_add_nat]
      rfl
    · intro h0 h1 hv
      have e : to_size_t len = bs.length := by unfold to_size_t; omega
      have e2 : to_uint32 ((wr.total_written : Int) + len)
          = (wr.total_written + bs.length) % 2 ^ 32 := by
        unfold to_uint32; omega
      simp [yytbl_fwriten, fwrite, hok, e, e2]
    · intro hp b
      rw [hp]; exact overwrite_at_end _ _
  · intro hok
    refine ⟨?_, ?_, ?_, ?_⟩
    · simp [yytbl_fwrite8, fwrite, hok]
    · simp [yytbl_fwrite16, fwrite, hok]
    · simp [yytbl_fwrite32, fwrite, hok]
    · intro h0 h1
      have e : to_size_t len ≠ 0 := by unfold to_size_t; omega
      simp [yytbl_fwriten, fwrite, hok, e, Ne.symm e]

theorem counted_push {wr : yytbl_writer} (h : Counted wr) (bs : List Nat) :
    Counted (push wr bs) := by
  obtain ⟨g, ht, ha⟩ := h
  refine ⟨good_push g bs, ?_, ?_⟩
  · simp only [push, List.length_append]; omega
  · simp only [push, List.length_append]; omega

theorem counted_pushZeros (n : Nat) {wr : yytbl_writer} (h : Counted wr) :
    Counted (pushZeros n wr) := by
  induction n generalizing wr with
  | zero => exact h
  | succ n ih => exact ih (counted_push h _)

theorem counted_pushElems (K : Consts) (td : yytbl_data) (n : Nat) (i : Int)
    {wr : yytbl_writer} (h : Counted wr) : Counted (pushElems K td n i wr) := by
  induction n generalizing wr i with
  | zero => exact h
  | succ n ih => exact ih _ (counted_push h _)

theorem counted_mark {wr : yytbl_writer} (h : Counted wr) : Counted (mark wr) := by
  obtain ⟨g, ht, _⟩ := h
  refine ⟨good_mark g, ?_, ?_⟩
  · simpa [mark] using ht
  · simp only [mark]; exact le_of_eq g.2.1

theorem counted_patched {wr : yytbl_writer} (h : Counted wr)
    (ha : wr.th_ssize_pos + 4 ≤ wr.out.content.length) : Counted (patched wr) := by
  obtain ⟨g, ht, _⟩ := h
  have hl : (patched wr).out.content.length = wr.out.content.length := by
    simp only [patched]
    exact overwrite_length _ _ _ (by simpa [be32] using ha)
  refine ⟨good_patched g ha, ?_, ?_⟩
  · rw [hl]; exact ht
  · rw [hl]; show wr.th_ssize_pos ≤ _; omega

theorem counted_hdr {wr : yytbl_writer} (h : Counted wr) (th : yytbl_hdr)
    (hs : 14 + (strlen th.th_version + 1) + (strlen th.th_name + 1) + 7 < 2 ^ 31) :
    Counted (yytbl_hdr_fwrite wr th).2 := by
  have hb : Counted (hdrBody wr th) := by
    unfold hdrBody
    exact counted_push (counted_push (counted_push (counted_push (counted_mark
      (counted_push (counted_push h _) _)) _) _) _) _
  rw [hdr_fwrite_good h.1 th hs]
  simp only
  split <;> exact counted_pushZeros _ hb

theorem counted_tbl (K : Consts) {wr : yytbl_writer} (h : Counted wr) (td : yytbl_data)
    (hf : Fits K td) : Counted (yytbl_data_fwrite K wr td).2 := by
  rw [data_fwrite_state K h.1 td hf]
  have hb : Counted (recBody K wr td) := by
    unfold recBody recHead
    exact counted_pushElems K td _ _
      (counted_push (counted_push (counted_push (counted_push h _) _) _) _)
  have hz := counted_pushZeros (recordPad K wr td) hb
  refine counted_patched hz ?_
  rw [pushZeros_anchor, recBody_anchor, pushZeros_content, recBody_content_spec K wr td hf,
    List.length_append, List.length_append, recordBytes_length K td hf]
  have := h.2.2
  omega

theorem run_counted (K : Consts) (wr : yytbl_writer) (h : Run K wr) : Counted wr := by
  induction h with
  | init f hc hp hok =>
    refine ⟨good_writer_init f hok (by rw [hp, hc]; rfl), ?_, ?_⟩
    · simp [yytbl_writer_init, hc]
    · simp [yytbl_writer_init]
  | w8 wr v _ ih => rw [fwrite8_good ih.1]; exact counted_push ih _
  | w16 wr v _ ih => rw [fwrite16_good ih.1]; exact counted_push ih _
  | w32 wr v _ ih => rw [fwrite32_good ih.1]; exact counted_push ih _
  | wn wr bs len _ h0 h1 hv ih => rw [fwriten_good ih.1 bs len h0 h1 hv]; exact counted_push ih _
  | hdr wr th _ hs ih => exact counted_hdr ih th hs
  | tbl wr td _ hf ih => exact counted_tbl K ih td hf

/-- C16: from `yytbl_writer_init` on an empty sink, after any sequence of
primitive writes, header writes and table writes on a sink that accepts every
call, the write position is the end of the sink and `total_written` is the
number of bytes the sink holds (as the 32-bit counter it is: equal to it
while the sink holds fewer than `2^32` bytes); the backpatch does not change
the count. -/
theorem total_written_counts_sink (K : Consts) (wr : yytbl_writer) (h : Run K wr) :
    wr.out.pos = wr.out.content.length ∧
      wr.total_written = wr.out.content.length % 2 ^ 32 ∧
      (wr.out.content.length < 2 ^ 32 → wr.total_written = wr.out.content.length) := by
  obtain ⟨g, ht, _⟩ := run_counted K wr h
  exact ⟨g.2.1, ht, fun hl => by rw [ht, Nat.mod_eq_of_lt hl]⟩

/-- Witness for C16: the header for `"2.6.0"`, `"M"`, then the scalar table,
then one more byte: 24 + 32 + 1 bytes. -/
theorem total_written_counts_sink_witness :
    (yytbl_fwrite8 (yytbl_data_fwrite flexConsts
        (yytbl_hdr_fwrite (yytbl_writer_init emptyFile).2
          (yytbl_hdr_init exVersion exName).2).2 exScalar).2 7).2.total_written
      = (yytbl_fwrite8 (yytbl_data_fwrite flexConsts
          (yytbl_hdr_fwrite (yytbl_writer_init emptyFile).2
            (yytbl_hdr_init exVersion exName).2).2 exScalar).2 7).2.out.content.length % 2 ^ 32 :=
  (total_written_counts_sink flexConsts _
    (Run.w8 _ 7 (Run.tbl _ exScalar
      (Run.hdr _ (yytbl_hdr_init exVersion exName).2
        (Run.init emptyFile rfl rfl (fun _ => rfl)) (by decide)) exScalar_fits))).2.1

theorem overwrite_getD_outside (c bs : List Nat) (p i d : Nat) (hp : p + bs.length ≤ c.length)
    (hi : i < p ∨ p + bs.length ≤ i) : (overwrite c p bs).getD i d = c.getD i d := by
  unfold overwrite
  have hl : (c.take p).length = p := by rw [List.length_take]; omega
  rcases hi with h | h
  · rw [List.append_assoc, List.getD_append _ _ _ _ (by omega)]
    simp only [List.getD_eq_getElem?_getD, List.getElem?_take, h, if_true]
  · rw [List.getD_append_right _ _ _ _ (by simp only [List.length_append]; omega)]
    simp only [List.getD_eq_getElem?_getD, List.getElem?_drop, List.length_append, hl]
    congr 2
    omega

theorem foldl_sessionInv (K : Consts) (tds : List yytbl_data) (wr : yytbl_writer)
    (h : SessionInv wr) (hall : ∀ t ∈ tds, Fits K t) :
    SessionInv (tds.foldl (fun wr td => (yytbl_data_fwrite K wr td).2) wr) ∧
      (tds.foldl (fun wr td => (yytbl_data_fwrite K wr td).2) wr).th_ssize_pos
        = wr.th_ssize_pos := by
  induction tds generalizing wr with
  | nil => exact ⟨h, rfl⟩
  | cons t ts ih =>
    have ht := hall t (List.mem_cons_self _ _)
    have := ih (yytbl_data_fwrite K wr t).2 (sessionInv_tbl K wr t h ht)
      (fun x hx => hall x (List.mem_cons_of_mem _ hx))
    simp only [List.foldl_cons]
    exact ⟨this.1, by rw [this.2, data_fwrite_anchor K h.1 t ht]⟩

theorem sessionAfter_inv (K : Consts) (f : FILE) (version name : CString)
    (tds : List yytbl_data) (hok : ∀ n, f.ok n = true) (hend : f.pos = f.content.length)
    (hs : hdrRaw version name + 7 < 2 ^ 31) (hall : ∀ t ∈ tds, Fits K t) :
    SessionInv (sessionAfter K f version name tds) ∧
      (sessionAfter K f version name tds).th_ssize_pos = f.content.length + 8 := by
  have h0 : SessionInv (sessionStart f version name) := sessionInv_hdr f version name hok hend hs
  have := foldl_sessionInv K tds _ h0 hall
  exact ⟨this.1, by
    unfold sessionAfter
    rw [this.2, (sessionStart_total f version name hok hend hs).2]⟩

/-- C17: a table write in a session (header first, then earlier records, all
successful, on an empty sink) leaves the sink with its earlier content, then
the bytes of the record and its padding, and with the 4 bytes at offset 8
replaced by the big-endian value of `total_written` as of the end of the
record; all other earlier bytes are as before, and the value returned counts
the record and its padding only, as does the growth of the sink and of
`total_written`. -/
theorem backpatch_postcondition (K : Consts) (f : FILE) (version name : CString)
    (tds : List yytbl_data) (td : yytbl_data) (hc : f.content = []) (hp : f.pos = 0)
    (hok : ∀ n, f.ok n = true) (hs : hdrRaw version name + 7 < 2 ^ 31)
    (hall : ∀ t ∈ tds, Fits K t) (hf : Fits K td) :
    (yytbl_data_fwrite K (sessionAfter K f version name tds) td).2.out.content
        = overwrite ((sessionAfter K f version name tds).out.content ++ recordBytes K td
            ++ List.replicate (recordPad K (sessionAfter K f version name tds) td) 0) 8
          (encodeBE 4
            (yytbl_data_fwrite K (sessionAfter K f version name tds) td).2.total_written) ∧
      (yytbl_data_fwrite K (sessionAfter K f version name tds) td).1
        = ((recordBytes K td).length + recordPad K (sessionAfter K f version name tds) td : Nat) ∧
      (yytbl_data_fwrite K (sessionAfter K f version name tds) td).2.out.content.length
        = (sessionAfter K f version name tds).out.content.length
          + ((recordBytes K td).length + recordPad K (sessionAfter K f version name tds) td) ∧
      (yytbl_data_fwrite K (sessionAfter K f version name tds) td).2.total_written
        = ((sessionAfter K f version name tds).total_written
          + ((recordBytes K td).length
            + recordPad K (sessionAfter K f version name tds) td)) % 2 ^ 32 ∧
      readBE32 (yytbl_data_fwrite K (sessionAfter K f version name tds) td).2.out.content 8
        = (yytbl_data_fwrite K (sessionAfter K f version name tds) td).2.total_written ∧
      ∀ i : Nat, i < (sessionAfter K f version name tds).out.content.length → i < 8 ∨ 12 ≤ i →
        (yytbl_data_fwrite K (sessionAfter K f version name tds) td).2.out.content.getD i 0
          = (sessionAfter K f version name tds).out.content.getD i 0 := by
  obtain ⟨inv, ha⟩ := sessionAfter_inv K f version name tds hok (by rw [hp, hc]; rfl) hs hall
  rw [hc] at ha
  simp only [List.length_nil, Nat.zero_add] at ha
  generalize sessionAfter K f version name tds = wr at inv ha ⊢
  obtain ⟨g, h8, hanc⟩ := inv
  have hcont := data_fwrite_content K g td hf
  rw [ha] at hcont hanc
  have hgz := (sessionInv_tbl K wr td ⟨g, h8, by rw [ha]; exact hanc⟩ hf).1
  have ht := fits_total_len K td hf
  have hret : (yytbl_data_fwrite K wr td).1
      = ((recordBytes K td).length + recordPad K wr td : Nat) := by
    rw [data_fwrite_good K g td (by rw [ht]; exact hf.1) (by rw [ht]; exact hf.2),
      recBody_pad K wr td hf, recordBytes_length K td hf, ht]
    have hn : ((elementCount K td).toNat : Int) = elementCount K td :=
      Int.toNat_of_nonneg hf.1
    push_cast
    rw [hn]
  have htot := data_fwrite_total K g td hf
  rw [hret] at htot
  have hlen : (wr.out.content ++ recordBytes K td
      ++ List.replicate (recordPad K wr td) 0).length
      = wr.out.content.length + ((recordBytes K td).length + recordPad K wr td) := by
    simp only [List.length_append, List.length_replicate]; omega
  have hfit : 8 + (be32 (yytbl_data_fwrite K wr td).2.total_written).length
      ≤ (wr.out.content ++ recordBytes K td
        ++ List.replicate (recordPad K wr td) 0).length := by
    rw [hlen]
    simp only [be32, List.length_cons, List.length_nil]
    omega
  refine ⟨?_, hret, ?_, ?_, ?_, ?_⟩
  · rw [hcont, ← encodeBE_four, to_uint32_natCast, Nat.mod_eq_of_lt hgz.2.2]
  · rw [hcont, overwrite_length _ _ _ hfit, hlen]
  · omega
  · have := data_fwrite_section_size K ⟨g, h8, by rw [ha]; exact hanc⟩ td hf
    rwa [ha] at this
  · intro i hi hout
    rw [hcont, overwrite_getD_outside _ _ _ _ _ hfit (by simpa [be32] using hout),
      List.append_assoc, List.getD_append _ _ _ _ hi]

/-- Witness for C15: a 32-bit write on the empty sink, and a 16-bit write on a
sink whose first call fails. -/
theorem primitive_writers_witness :
    ((yytbl_fwrite32 emptyWriter 0xF13C57B1).1 = 4 ∧
        (yytbl_fwrite32 emptyWriter 0xF13C57B1).2.out.content
          = overwrite emptyWriter.out.content emptyWriter.out.pos (encodeBE 4 0xF13C57B1) ∧
        (yytbl_fwrite32 emptyWriter 0xF13C57B1).2.total_written
          = (emptyWriter.total_written + 4) % 2 ^ 32) ∧
      ((yytbl_fwrite16 (yytbl_writer_init (failAt 0)).2 7).1 = -1 ∧
        (yytbl_fwrite16 (yytbl_writer_init (failAt 0)).2 7).2.total_written
          = (yytbl_writer_init (failAt 0)).2.total_written) :=
  ⟨((primitive_writers emptyWriter 0xF13C57B1 [] 0).1 rfl).2.2.1,
    ((primitive_writers (yytbl_writer_init (failAt 0)).2 7 [] 0).2 rfl).2.1⟩

/-- Witness for C17: the header for `"2.6.0"`, `"M"` on the empty sink, the
scalar table, then the paired table. -/
theorem backpatch_postcondition_witness :
    (yytbl_data_fwrite flexConsts
        (sessionAfter flexConsts emptyFile exVersion exName [exScalar]) exPaired).1
        = ((recordBytes flexConsts exPaired).length
            + recordPad flexConsts
                (sessionAfter flexConsts emptyFile exVersion exName [exScalar]) exPaired : Nat) ∧
      readBE32 (yytbl_data_fwrite flexConsts
          (sessionAfter flexConsts emptyFile exVersion exName [exScalar])
          exPaired).2.out.content 8
        = (yytbl_data_fwrite flexConsts
            (sessionAfter flexConsts emptyFile exVersion exName [exScalar])
            exPaired).2.total_written :=
  ⟨(backpatch_postcondition flexConsts emptyFile exVersion exName [exScalar] exPaired rfl rfl
      (fun _ => rfl) (by decide)
      (fun t ht => by rw [List.mem_singleton.mp ht]; exact exScalar_fits)
      (by unfold Fits; decide)).2.1,
    (backpatch_postcondition flexConsts emptyFile exVersion exName [exScalar] exPaired rfl rfl
      (fun _ => rfl) (by decide)
      (fun t ht => by rw [List.mem_singleton.mp ht]; exact exScalar_fits)
      (by unfold Fits; decide)).2.2.2.2.1⟩

/-- When `min_int_size` does not choose a narrower width, whether the same or
a larger one, `yytbl_data_compress` leaves the record as it is. -/
theorem compress_unchanged_of_not_narrower (K : Consts) (hK : K.Sane) (tbl : yytbl_data)
    (h : TFLAGS2BYTES K tbl.td_flags ≤ min_int_size K tbl) :
    yytbl_data_compress K tbl = tbl := by
  rw [compress_eq K hK, if_neg (by omega)]

/-- For the header of `"2.6.0"`, `"M"`, a short call at any position other
than the name write makes `yytbl_hdr_fwrite` return `-1`. -/
theorem hdr_fwrite_other_short_calls :
    ∀ n ∈ [0, 1, 2, 3, 4, 5, 7, 8],
      (yytbl_hdr_fwrite (yytbl_writer_init (failAt n)).2
        (yytbl_hdr_init exVersion exName).2).1 = -1 := by
  decide

set_option maxRecDepth 8000 in
/-- For the paired table written after the header of `"2.6.0"`, `"M"`, a short
call in the metadata, the elements or the backpatch makes `yytbl_data_fwrite`
return `-1`, and a short call at any of the four padding bytes makes it return
`59`. -/
theorem data_fwrite_short_calls :
    (∀ n ∈ [9, 10, 11, 12, 13, 14, 15, 16, 17, 18, 19, 20, 21, 22, 23, 24, 29, 30, 31, 32],
      (yytbl_data_fwrite flexConsts
        (yytbl_hdr_fwrite (yytbl_writer_init (failAt n)).2
          (yytbl_hdr_init exVersion exName).2).2 exPaired).1 = -1) ∧
    (∀ n ∈ [25, 26, 27, 28],
      (yytbl_data_fwrite flexConsts
        (yytbl_hdr_fwrite (yytbl_writer_init (failAt n)).2
          (yytbl_hdr_init exVersion exName).2).2 exPaired).1 = 59) := by
  decide

end Tables
